import Mathlib

/-!
Verification development for the boxesandglue rich-text compiler core.

The Go sources are embedded shallowly:
* package `bag` (unit system): `Factor`, `Sp`, `ScaledPoint.String`,
  `ToPT`, `ScaledPointFromFloat`.
* package `document` (font families): `FontFamily.GetFontSource`.
* package `frontend` (rich-text compiler): `BuildNodelistFromString`,
  `Mknodes`, `FormatParagraph`, settings cascade.

The Go source computes lengths in `float64` and converts to the integer
`ScaledPoint` type by truncation toward zero.  All the scale factors are
exact decimal constants, so the float pipeline is modelled by exact
fractions: a parsed number is an integer pair `(numerator, denominator)`
and every conversion is an exact integer computation ending in a
truncating division (`truncDiv`).  Go maps are association lists with
first-match lookup (keys stay unique under the operations used).
External collaborators that are not part of the repository excerpt
(node-list primitives, glyph shaping, face loading, line breaking) are
modelled from the spec and marked as such.
-/

namespace BG

/-! ## Unit system (package bag) -/

/-- `Factor` is the multiplier to get DTP points from scaled points.
Source: `const Factor ScaledPoint = 0xffff`. -/
def Factor : Int := 0xffff

/-- Go's conversion `ScaledPoint(f)` (float64 to int) truncates toward
zero; `truncDiv n d` is that truncation applied to the exact fraction
`n / d`.  Both branches divide nonnegative integers, where Lean's integer
division agrees with mathematical floor. -/
def truncDiv (n : Int) (d : Nat) : Int :=
  if n < 0 then -((-n) / (d : Int)) else n / (d : Int)

/-- `ToPT` returns the unit as a float64 DTP point:
`float64(s) / float64(Factor)`. -/
def ToPT (s : Int) : ℚ := (s : ℚ) / (Factor : ℚ)

/-- `ScaledPointFromFloat` converts the DTP point `n / d` to a
ScaledPoint: `ScaledPoint(f * float64(Factor))`. -/
def ScaledPointFromFloat (n : Int) (d : Nat) : Int :=
  truncDiv (n * Factor) d

/-- `math.Round` (used by `ScaledPoint.String`) rounds half away from
zero.  `roundHalfAway n d` is that rounding applied to the exact fraction
`n / d` with `d > 0`: for nonnegative `n` it is `⌊(2n + d) / 2d⌋`. -/
def roundHalfAway (n : Int) (d : Nat) : Int :=
  if n < 0 then -((2 * (-n) + d) / (2 * d : Int)) else (2 * n + d) / (2 * d : Int)

/-- The integer printed (up to the fixed division by 100) by
`ScaledPoint.String`: the source computes
`math.Round(100*float64(s)/float64(Factor))/100` and formats it with
`strconv.FormatFloat(·, 'f', -1, 64)`, which prints the shortest decimal
string reading back to the same float; the printed string's numeric value
is therefore `stringValNum s / 100`. -/
def stringValNum (s : Int) : Int := roundHalfAway (100 * s) 0xffff

/-- The unit tokens of the regexp `(.*?)(mm|cm|in|pt|px|pc|m)`. -/
inductive UnitTok where
  | mm | cm | inch | pt | px | pc | m
deriving DecidableEq, Repr

/-- The characters of a unit token. -/
def tokChars : UnitTok → List Char
  | .mm => ['m', 'm']
  | .cm => ['c', 'm']
  | .inch => ['i', 'n']
  | .pt => ['p', 't']
  | .px => ['p', 'x']
  | .pc => ['p', 'c']
  | .m => ['m']

/-- A parsed float value as an exact fraction: numerator and positive
denominator. -/
abbrev Frac := Int × Nat

/-- Rational value of a fraction pair. -/
def fracVal (f : Frac) : ℚ := (f.1 : ℚ) / (f.2 : ℚ)

/-- The `switch unitstring` conversions of `Sp` (source lines 71-91) on
the parsed number `l = n / d`, each an exact rational scaling followed by
the truncating `ScaledPoint(...)` conversion.  The float literal `2.54`
is the exact decimal `254/100`. -/
def spVal (f : Frac) : UnitTok → Int
  | .pt => truncDiv (f.1 * Factor) f.2
  | .inch => truncDiv (f.1 * 72 * Factor) f.2
  | .mm => truncDiv (f.1 * 100 * 72 * Factor) (f.2 * 10 * 254)
  | .cm => truncDiv (f.1 * 100 * 72 * Factor) (f.2 * 254)
  | .m => truncDiv (f.1 * 100 * 100 * 72 * Factor) (f.2 * 254)
  | .px => truncDiv (f.1 * 96 * Factor) (f.2 * 72)
  | .pc => truncDiv (f.1 * 12 * Factor) f.2

/-- Try to read one unit token at the head of the character list, in the
alternation order of the regexp `mm|cm|in|pt|px|pc|m` (at a fixed
position the engine prefers the earlier alternative). -/
def unitAt : List Char → Option (UnitTok × List Char)
  | [] => none
  | c :: cs =>
    if c = 'm' then
      match cs with
      | c2 :: cs2 => if c2 = 'm' then some (.mm, cs2) else some (.m, cs)
      | [] => some (.m, [])
    else if c = 'c' then
      match cs with
      | c2 :: cs2 => if c2 = 'm' then some (.cm, cs2) else none
      | [] => none
    else if c = 'i' then
      match cs with
      | c2 :: cs2 => if c2 = 'n' then some (.inch, cs2) else none
      | [] => none
    else if c = 'p' then
      match cs with
      | c2 :: cs2 =>
        if c2 = 't' then some (.pt, cs2)
        else if c2 = 'x' then some (.px, cs2)
        else if c2 = 'c' then some (.pc, cs2)
        else none
      | [] => none
    else none

/-- One leftmost-lazy match of `(.*?)(mm|cm|in|pt|px|pc|m)`: the shortest
prefix (group 1) up to the first unit token (group 2), plus the remaining
characters after the match. -/
def findTok : List Char → Option (List Char × UnitTok × List Char)
  | [] => none
  | c :: cs =>
    match unitAt (c :: cs) with
    | some (u, rest) => some ([], u, rest)
    | none =>
      match findTok cs with
      | some (p, u, rest) => some (c :: p, u, rest)
      | none => none

/-- Characters that can occur in the decimal literals accepted by the
`strconv.ParseFloat` model below. -/
def numChar (c : Char) : Bool :=
  c.isDigit || c = '+' || c = '-' || c = '.' || c = 'e'

/-- Digit run to a natural number. -/
def digitsToNat (ds : List Char) : Nat :=
  ds.foldl (fun a c => a * 10 + (c.toNat - 48)) 0

/-- Largest finite float64 value, `(2^53 - 1) * 2^971`, written as a
numeral so that kernel evaluation stays fast; used for the
`strconv.ErrRange` overflow check of `ParseFloat` (on overflow Go returns
`±Inf` together with a non-nil range error, which makes `Sp` fail). -/
def maxFloatNum : Nat := 179769313486231570814527423731704356798070567525844996598917476803157260780028538760589558632766878171540458953514382464234321326889464182768467546703537516986049910576551282076245490090389328944075868508455133942304583236903222948165808559332123348274797826204144723168738177180919299881250404026184124858368

/-- Digit run of an exponent, after `e` and the optional sign: the run
must be nonempty and fill the rest of the input; it scales the mantissa
`n / d` exactly.  Part of the `strconv.ParseFloat` model. -/
def parseExpTail (n : Int) (d : Nat) (epos : Bool) (r1 : List Char) : Option Frac :=
  let eds := r1.takeWhile (·.isDigit)
  if eds.isEmpty || !(r1.dropWhile (·.isDigit)).isEmpty then none
  else if epos then some (n * 10 ^ digitsToNat eds, d)
  else some (n, d * 10 ^ digitsToNat eds)

/-- Exponent part of a decimal literal: empty, or `e` followed by an
optional sign and a nonempty digit run.  Part of the
`strconv.ParseFloat` model. -/
def parseExpPart (n : Int) (d : Nat) (cs3 : List Char) : Option Frac :=
  match cs3 with
  | [] => some (n, d)
  | c :: r =>
    if c = 'e' then
      match r with
      | c2 :: r2 =>
        if c2 = '+' then parseExpTail n d true r2
        else if c2 = '-' then parseExpTail n d false r2
        else parseExpTail n d true r
      | [] => parseExpTail n d true []
    else none

/-- Mantissa of a decimal literal after the optional sign: digits with at
most one dot, at least one digit in total, then the exponent part.  The
value is the exact fraction `±digits / 10^fracLen`. -/
def parseMantissa (sgn : Int) (cs1 : List Char) : Option Frac :=
  let intPart := cs1.takeWhile (·.isDigit)
  match cs1.dropWhile (·.isDigit) with
  | c :: r =>
    if c = '.' then
      let fracPart := r.takeWhile (·.isDigit)
      if intPart.isEmpty && fracPart.isEmpty then none
      else parseExpPart (sgn * digitsToNat (intPart ++ fracPart)) (10 ^ fracPart.length)
        (r.dropWhile (·.isDigit))
    else
      if intPart.isEmpty then none
      else parseExpPart (sgn * digitsToNat intPart) 1 (c :: r)
  | [] =>
    if intPart.isEmpty then none
    else parseExpPart (sgn * digitsToNat intPart) 1 []

/-- Model of `strconv.ParseFloat` restricted to decimal literals:
optional sign, digits with at most one dot (at least one digit), optional
`e`/`E` exponent.  The hexadecimal, `inf`/`nan` and underscore forms of
Go are not modelled.  Inputs are already lowercased by `Sp`. -/
def parseFloatCore (cs : List Char) : Option Frac :=
  match cs with
  | c :: r =>
    if c = '+' then parseMantissa 1 r
    else if c = '-' then parseMantissa (-1) r
    else parseMantissa 1 cs
  | [] => parseMantissa 1 []

/-- `ParseFloat` model including the overflow (`ErrRange`) check. -/
def parseFloat (cs : List Char) : Option Frac :=
  match parseFloatCore cs with
  | none => none
  | some f => if f.1.natAbs ≤ maxFloatNum * f.2 then some f else none

/-- Core of `Sp` on a lowercased character list: there must be exactly
one match of the unit regexp; the number before the unit token is parsed
and converted.  All error returns (each a wrapped `ErrConversion`)
collapse to `none`. -/
def spCore (cs : List Char) : Option Int :=
  match findTok cs with
  | none => none
  | some (pre, u, rest) =>
    if (findTok rest).isSome then none
    else
      match parseFloat pre with
      | none => none
      | some l => some (spVal l u)

/-- `Sp` returns the unit converted to ScaledPoint; the input is
lowercased first (`strings.ToLower`). -/
def Sp (s : String) : Option Int :=
  spCore (s.toList.map Char.toLower)

/-- The value of `Sp(s.String() + "pt")`: the string printed for the
scaled point `s` has value `stringValNum s / 100`, which reparsed through
the `"pt"` branch gives this truncated product. -/
def roundTripPt (s : Int) : Int := spVal (stringValNum s, 100) .pt

/-! ## Go map model

Go maps keyed by setting type, face or size are modelled as association
lists with first-match lookup; `mupdate` replaces an existing binding in
place or appends a new one, `mdelete` removes a key, so keys stay unique
under these operations. -/

instance exceptDecEq {ε α : Type} [DecidableEq ε] [DecidableEq α] :
    DecidableEq (Except ε α) := fun a b =>
  match a, b with
  | .error e1, .error e2 =>
    match decEq e1 e2 with
    | .isTrue h => .isTrue (congrArg Except.error h)
    | .isFalse h => .isFalse (fun hc => h (Except.error.inj hc))
  | .error _, .ok _ => .isFalse (fun hc => Except.noConfusion hc)
  | .ok _, .error _ => .isFalse (fun hc => Except.noConfusion hc)
  | .ok x, .ok y =>
    match decEq x y with
    | .isTrue h => .isTrue (congrArg Except.ok h)
    | .isFalse h => .isFalse (fun hc => h (Except.ok.inj hc))

/-- Go map lookup `l[k]` (presence variant). -/
def mlookup {α β : Type} [DecidableEq α] (l : List (α × β)) (k : α) : Option β :=
  match l with
  | [] => none
  | p :: r => if p.1 = k then some p.2 else mlookup r k

/-- Go map assignment `l[k] = v`. -/
def mupdate {α β : Type} [DecidableEq α] (l : List (α × β)) (k : α) (v : β) : List (α × β) :=
  match l with
  | [] => [(k, v)]
  | p :: r => if p.1 = k then (k, v) :: r else p :: mupdate r k v

/-- Go `delete(l, k)`. -/
def mdelete {α β : Type} [DecidableEq α] (l : List (α × β)) (k : α) : List (α × β) :=
  l.filter (fun p => !(p.1 = k : Bool))

/-! ## Font families (package document) -/

/-- FontStyle is the type which represents different font styles such as
italic or oblique. -/
inductive FontStyle where
  | normal | italic | oblique
deriving DecidableEq, Repr

/-- FontSource defines a mapping of name to a font source including the
font features.  `sizeAdjust` is the CSS-style size-adjust factor of the
frontend font source (a float in Go, an exact fraction here; `(0, 1)`
means no adjustment). -/
structure FontSource where
  name : String
  fontFeatures : List String
  source : String
  index : Nat
  sizeAdjust : Frac := (0, 1)
deriving DecidableEq, Repr

/-- FontFamily keeps fonts with different weights and styles together.
`familyMember` is `nil` (`none`) until the first `AddMember`. -/
structure FontFamily where
  id : Nat
  name : String
  familyMember : Option (List (Int × List (FontStyle × FontSource))) := none
deriving DecidableEq, Repr

/-- The two distinguishable font-family resolution errors:
`ErrEmptyFF` and `ErrUnfulfilledFamilyRequest`. -/
inductive FFErr where
  | errEmptyFF
  | errUnfulfilledFamilyRequest
deriving DecidableEq, Repr

/-- `AddMember` adds a member to the font family, initializing the nested
maps when absent. -/
def AddMember (ff : FontFamily) (fs : FontSource) (weight : Int) (style : FontStyle) :
    FontFamily :=
  let m := ff.familyMember.getD []
  let inner := (mlookup m weight).getD []
  { ff with familyMember := some (mupdate m weight (mupdate inner style fs)) }

/-- `GetFontSource` tries to get the face for the requested weight and
style: `ErrEmptyFF` when no member was ever added, and
`ErrUnfulfilledFamilyRequest` when the exact weight or the exact style is
missing — no nearest-match fallback. -/
def GetFontSource (ff : FontFamily) (weight : Int) (style : FontStyle) :
    Except FFErr FontSource :=
  match ff.familyMember with
  | none => .error .errEmptyFF
  | some m =>
    match mlookup m weight with
    | none => .error .errUnfulfilledFamilyRequest
    | some inner =>
      match mlookup inner style with
      | none => .error .errUnfulfilledFamilyRequest
      | some fs => .ok fs

/-! ## Settings cascade (package frontend) -/

/-- A named color from the document color table (opaque here). -/
structure Color where
  name : String
deriving DecidableEq, Repr

/-- An external hyperlink (`document.Hyperlink`). -/
structure Hyperlink where
  uri : String
deriving DecidableEq, Repr

/-- Horizontal alignment of a paragraph.  Modelled from the spec: the
`HorizontalAlignment` type of the frontend is not part of the excerpt;
the zero value is the default alignment. -/
inductive HAlign where
  | halignDefault | halignLeft | halignRight | halignCenter
deriving DecidableEq, Repr

/-- The closed enumeration of setting kinds (`SettingType`). -/
inductive SettingType where
  | dummy
  | color
  | fontFamily
  | fontWeight
  | hAlign
  | hyperlink
  | indentLeft
  | indentLeftRows
  | leading
  | marginBottom
  | marginLeft
  | marginRight
  | marginTop
  | openTypeFeature
  | preserveWhitespace
  | size
  | style
  | yOffset
deriving DecidableEq, Repr

/-- The dynamic (`any`) values stored in a settings map, restricted to
the types the compiler reads. -/
inductive SettingValue where
  | str (s : String)
  | colorV (c : Color)
  | famV (ff : FontFamily)
  | weightInt (n : Int)
  | weightV (n : Int)
  | scaled (n : Int)
  | hyperV (h : Hyperlink)
  | styleV (s : FontStyle)
  | featStr (s : String)
  | featList (l : List String)
  | boolV (b : Bool)
  | halignV (a : HAlign)
  | intV (n : Int)
deriving DecidableEq, Repr

/-- `TypesettingSettings`: the settings map. -/
abbrev Settings := List (SettingType × SettingValue)

/-- Errors that abort a compile: a font-family resolution error
propagated from `GetFontSource`, the nil-pointer panic of calling
`GetFontSource` on a nil family, a failed dynamic type assertion on a
setting value, and the `panic("unhandled whitespace type")`. -/
inductive CompileErr where
  | fontErr (e : FFErr)
  | nilFamilyPanic
  | typePanic
  | unhandledWhitespace
deriving DecidableEq, Repr

/-- `SettingFontWeight`: Go accepts `int` and `FontWeight` dynamic
types and silently ignores others (the inner switch has no default), so
the 400 default stays for other types. -/
def resolveWeight (ts : Settings) : Int :=
  match mlookup ts .fontWeight with
  | some (.weightInt n) => n
  | some (.weightV n) => n
  | _ => 400

/-- `SettingStyle`: `v.(FontStyle)` panics on other dynamic types. -/
def resolveStyle (ts : Settings) : Except CompileErr FontStyle :=
  match mlookup ts .style with
  | none => .ok .normal
  | some (.styleV s) => .ok s
  | some _ => .error .typePanic

/-- `SettingFontFamily`: `v.(*FontFamily)` panics on other types. -/
def resolveFamily (ts : Settings) : Except CompileErr (Option FontFamily) :=
  match mlookup ts .fontFamily with
  | none => .ok none
  | some (.famV ff) => .ok (some ff)
  | some _ => .error .typePanic

/-- `SettingSize`: `v.(bag.ScaledPoint)` panics on other types; the
default is `12 * bag.Factor`. -/
def resolveSize (ts : Settings) : Except CompileErr Int :=
  match mlookup ts .size with
  | none => .ok (12 * Factor)
  | some (.scaled n) => .ok n
  | some _ => .error .typePanic

/-- `SettingYOffset`: `v.(bag.ScaledPoint)` panics on other types. -/
def resolveYOffset (ts : Settings) : Except CompileErr Int :=
  match mlookup ts .yOffset with
  | none => .ok 0
  | some (.scaled n) => .ok n
  | some _ => .error .typePanic

/-- `SettingPreserveWhitespace`: `v.(bool)` panics on other types. -/
def resolvePreserve (ts : Settings) : Except CompileErr Bool :=
  match mlookup ts .preserveWhitespace with
  | none => .ok false
  | some (.boolV b) => .ok b
  | some _ => .error .typePanic

/-- `SettingHyperlink`: `v.(document.Hyperlink)` panics on other
types. -/
def resolveHyperlink (ts : Settings) : Except CompileErr (Option Hyperlink) :=
  match mlookup ts .hyperlink with
  | none => .ok none
  | some (.hyperV h) => .ok (some h)
  | some _ => .error .typePanic

/-- `parseHarfbuzzFontFeatures`: a string is split on commas, a string
slice is split elementwise; other dynamic types fall through to an empty
list.  `harfbuzz.ParseFeature` itself is an external collaborator; parse
errors there are only logged and the (possibly zero) feature is appended
anyway, so the model keeps the raw strings. -/
def parseHarfbuzzFontFeatures : SettingValue → List String
  | .featStr s => s.splitOn ","
  | .featList l => l.flatMap (fun x => x.splitOn ",")
  | _ => []

/-- `SettingOpenTypeFeature` resolution. -/
def resolveFeatures (ts : Settings) : List String :=
  match mlookup ts .openTypeFeature with
  | some v => parseHarfbuzzFontFeatures v
  | none => []

/-- Document color table lookup: `SettingColor` accepts a color name
(looked up via `GetColor`, keeping `col` nil when absent) or a
`*color.Color` directly; other dynamic types are silently ignored. -/
def resolveColor (colors : List (String × Color)) (ts : Settings) : Option Color :=
  match mlookup ts .color with
  | some (.str s) => mlookup colors s
  | some (.colorV c) => some c
  | _ => none

/-! ## Node list model

The `node` package used by the compiler (`InsertAfter`, `Tail`,
`NewStartStop`, …) is not part of the repository excerpt.  Modelled from
the spec: a node list is an ordered sequence, insertion is positional and
all compiler call sites insert after the current tail, so the list is a
Lean list and insertion is an append; every node carries a unique id from
a monotonically increasing counter threaded through the compiler. -/

/-- StartStop action tag (`ActionNone` is the zero value). -/
inductive SSAction where
  | actionNone | actionHyperlink
deriving DecidableEq, Repr

/-- Glue subtype. -/
inductive GlueSub where
  | glueNormal | glueLineStart | glueLineEnd
deriving DecidableEq, Repr

/-- Compiled node variants with the fields the claims observe.  A
`startStop` with `startNode = none` is a start marker (a color start
carries `isColor = true`); one with `startNode = some i` is a stop whose
back-reference is the id `i` of its start. -/
inductive Node where
  | glyph (id : Nat) (codepoint : Nat) (components : String)
      (width height depth yoffset : Int) (hyphenate : Bool) (fontNum : Nat)
  | kern (id : Nat) (amount : Int)
  | glue (id : Nat) (width stretch shrink : Int) (stretchOrder : Nat) (sub : GlueSub)
  | rule (id : Nat) (width : Int)
  | penalty (id : Nat) (value : Int)
  | startStop (id : Nat) (action : SSAction) (startNode : Option Nat)
      (uri : Option String) (isColor : Bool)
deriving DecidableEq, Repr

/-- A vertical box (`node.VList`) holding a compiled sublist; returned
by `FormatParagraph`. -/
structure VList where
  id : Nat
  children : List Node
deriving DecidableEq, Repr

/-- The id of a node. -/
def idOf : Node → Nat
  | .glyph i _ _ _ _ _ _ _ _ => i
  | .kern i _ => i
  | .glue i _ _ _ _ _ => i
  | .rule i _ => i
  | .penalty i _ => i
  | .startStop i _ _ _ _ => i

/-! ## Shaping and font instances -/

/-- A shaped atom as returned by the external shaping engine (spec §6):
space-or-glyph flag, components, codepoint, metrics, trailing kern and
hyphenation flag. -/
structure Atom where
  isSpace : Bool
  components : String
  codepoint : Nat
  advance : Int
  height : Int
  depth : Int
  kernAfter : Int
  hyphenate : Bool
deriving DecidableEq, Repr

/-- A font instance (`*font.Font`): `num` is the allocation number that
stands for Go pointer identity; `space`, `spaceStretch` and
`spaceShrink` are the font's space metrics. -/
structure Font where
  num : Nat
  size : Int
  space : Int
  spaceStretch : Int
  spaceShrink : Int
deriving DecidableEq, Repr

/-- Face identity (`*pdf.Face`): modelled from the spec as the font
source's file and sub-font index (`loadFace` caches one face per
source). -/
abbrev FaceKey := String × Nat

/-- `fe.LoadFace`.  Modelled from the spec: `loadFace(fontSource) ->
face | Error`; the model always succeeds and identifies the face by
source file and index. -/
def LoadFace (fs : FontSource) : FaceKey := (fs.source, fs.index)

/-- Mutable frontend document state: the node id counter, the
`usedFonts` cache `face -> size -> *font.Font`, the next font allocation
number and a log of `CreateFont` calls (instrumentation recording each
`(face, size)` instantiation). -/
structure FeState where
  nextId : Nat := 0
  usedFonts : List (FaceKey × List (Int × Font)) := []
  nextFontNum : Nat := 0
  createLog : List (FaceKey × Int) := []
deriving DecidableEq, Repr

/-- `fe.Doc.CreateFont(face, size)`.  Modelled from the spec:
`instantiate(fontSource, size) -> FontInstance`; every call allocates a
fresh instance (fresh `num`), with space metrics derived from the size
(the concrete metric values are immaterial to the claims). -/
def CreateFont (face : FaceKey) (size : Int) (st : FeState) : Font × FeState :=
  ({ num := st.nextFontNum, size := size,
     space := size / 3, spaceStretch := size / 6, spaceShrink := size / 9 },
   { st with nextFontNum := st.nextFontNum + 1,
             createLog := st.createLog ++ [(face, size)] })

/-- `fnt.Shape`.  Modelled from the spec: the external shaping engine
turns the text into one atom per rune; space, tab and newline become
space atoms carrying their character as components, everything else a
glyph atom with metrics from the font instance. -/
def Shape (fnt : Font) (str : String) (_features : List String) : List Atom :=
  str.toList.map (fun c =>
    if c = ' ' then
      { isSpace := true, components := " ", codepoint := 32, advance := fnt.space,
        height := 0, depth := 0, kernAfter := 0, hyphenate := false }
    else if c = '\t' then
      { isSpace := true, components := "\t", codepoint := 9, advance := fnt.space,
        height := 0, depth := 0, kernAfter := 0, hyphenate := false }
    else if c = '\n' then
      { isSpace := true, components := "\n", codepoint := 10, advance := fnt.space,
        height := 0, depth := 0, kernAfter := 0, hyphenate := false }
    else
      { isSpace := false, components := String.mk [c], codepoint := c.toNat,
        advance := fnt.size, height := fnt.size, depth := 0, kernAfter := 0,
        hyphenate := false })

/-- `node.AppendLineEndAfter` at node-id counter `n`.  Modelled from the
spec: appends the Penalty/Glue sequence that forces a line end (a
penalty forbidding a break, an infinitely stretchable line-end glue and
a forcing penalty); three nodes. -/
def appendLineEnd (n : Nat) : List Node :=
  [.penalty n 10000,
   .glue (n + 1) 0 Factor 0 3 .glueLineEnd,
   .penalty (n + 2) (-10000)]

/-- One iteration of the atom loop of `BuildNodelistFromString` (source
lines 473-530): translates one shaped atom into nodes, threading the
`lastglue` flag (is the previously emitted node a glue/rule/line end)
and the node-id counter. -/
def atomStep (fnt : Font) (yoffset : Int) (preserve : Bool) (a : Atom)
    (lastglue : Bool) (n : Nat) : Except CompileErr (List Node × Bool × Nat) :=
  if a.isSpace then
    if preserve then
      if a.components = " " then
        .ok ([.rule n fnt.space], true, n + 1)
      else if a.components = "\t" then
        .ok ([.rule n fnt.space, .rule (n + 1) fnt.space,
              .rule (n + 2) fnt.space, .rule (n + 3) fnt.space], true, n + 4)
      else if a.components = "\n" then
        .ok (appendLineEnd n, true, n + 3)
      else
        .error .unhandledWhitespace
    else
      if lastglue then .ok ([], true, n)
      else .ok ([.glue n fnt.space fnt.spaceStretch fnt.spaceShrink 0 .glueNormal],
                true, n + 1)
  else
    let g : Node := .glyph n a.codepoint a.components a.advance a.height a.depth
      yoffset a.hyphenate fnt.num
    if a.kernAfter ≠ 0 then .ok ([g, .kern (n + 1) a.kernAfter], false, n + 2)
    else .ok ([g], false, n + 1)

/-- The atom loop of `BuildNodelistFromString` over a list of shaped
atoms. -/
def buildAtoms (fnt : Font) (yoffset : Int) (preserve : Bool) :
    List Atom → Bool → Nat → Except CompileErr (List Node × Bool × Nat)
  | [], lg, n => .ok ([], lg, n)
  | a :: rest, lg, n => do
    let (ns1, lg1, n1) ← atomStep fnt yoffset preserve a lg n
    let (ns2, lg2, n2) ← buildAtoms fnt yoffset preserve rest lg1 n1
    .ok (ns1 ++ ns2, lg2, n2)

/-- The resolved configuration of one text run: everything
`BuildNodelistFromString` derives from the settings map before touching
the node list. -/
structure RunCfg where
  col : Option Color
  hl : Option Hyperlink
  preserve : Bool
  yoffset : Int
  face : FaceKey
  fontsize : Int
  features : List String
deriving Repr

/-- The settings-resolution phase of `BuildNodelistFromString` (source
lines 358-433): per-key resolution, the font-source lookup (failing the
compile on a family miss, source lines 419-421; a nil family makes the
`GetFontSource` call dereference a nil pointer), the CSS-style
size-adjust applied before caching (lines 422-425) and the effective
feature list (document defaults, then the font source's features, then
the per-setting features, lines 426-429). -/
def resolveRun (colors : List (String × Color)) (defaultFeatures : List String)
    (ts : Settings) : Except CompileErr RunCfg := do
  let fontweight := resolveWeight ts
  let fontstyle ← resolveStyle ts
  let ffOpt ← resolveFamily ts
  let fontsize0 ← resolveSize ts
  let col := resolveColor colors ts
  let hlOpt ← resolveHyperlink ts
  let preserve ← resolvePreserve ts
  let yoffset ← resolveYOffset ts
  let settingFeatures := resolveFeatures ts
  let some ff := ffOpt | throw .nilFamilyPanic
  let fs ← match GetFontSource ff fontweight fontstyle with
    | .ok fs => pure fs
    | .error e => throw (.fontErr e)
  let fontsize := if fs.sizeAdjust.1 ≠ 0 then
      ScaledPointFromFloat (fontsize0 * ((fs.sizeAdjust.2 : Int) - fs.sizeAdjust.1))
        (0xffff * fs.sizeAdjust.2)
    else fontsize0
  let fontfeatures := defaultFeatures
    ++ (fs.fontFeatures.flatMap (fun x => x.splitOn ","))
    ++ settingFeatures
  return { col := col, hl := hlOpt, preserve := preserve, yoffset := yoffset,
           face := LoadFace fs, fontsize := fontsize, features := fontfeatures }

/-- The font cache of `BuildNodelistFromString` (source lines 434-445).
Note that line 435 resets the whole `usedFonts` map when `face` is
missing, and line 438 resets the per-face inner map when `fontsize` is
missing, before the lookup-or-create at lines 441-445 — both
conditionals reset a map instead of initializing the missing entry,
faithfully reproduced. -/
def cacheFont (face : FaceKey) (fontsize : Int) (st : FeState) : Font × FeState :=
  let uf1 := if mlookup st.usedFonts face = none then [] else st.usedFonts
  let inner1 := (mlookup uf1 face).getD []
  let uf2 := if mlookup inner1 fontsize = none then mupdate uf1 face [] else uf1
  let inner2 := (mlookup uf2 face).getD []
  match mlookup inner2 fontsize with
  | some f => (f, { st with usedFonts := uf2 })
  | none =>
    let (f, st2) := CreateFont face fontsize { st with usedFonts := uf2 }
    (f, { st2 with usedFonts := mupdate uf2 face (mupdate inner2 fontsize f) })

/-- The node-emission phase of `BuildNodelistFromString` (source lines
434-548): the font cache, the hyperlink/color start nodes, the shaped
atom loop (`lastglue` starts out nil) and the color/hyperlink stop
nodes.  When a color is set, the source finally overwrites its local
`head` with `colStart` (line 468), so a hyperlink start node created
just before drops off the forward list; the model reproduces that by
keeping only `[colStart]`.  The color stop (lines 531-539) never gets a
`StartNode`; the hyperlink stop (lines 540-545) back-references the
start. -/
def buildRun (cfg : RunCfg) (str : String) (st : FeState) :
    Except CompileErr (List Node × FeState) := do
  let (fnt, st) := cacheFont cfg.face cfg.fontsize st
  let (hlStartId, headList, st) :=
    match cfg.hl with
    | some hl =>
      (some st.nextId,
       [Node.startStop st.nextId .actionHyperlink none (some hl.uri) false],
       { st with nextId := st.nextId + 1 })
    | none => (none, ([] : List Node), st)
  let (headList, st) :=
    match cfg.col with
    | some _ =>
      ([Node.startStop st.nextId .actionNone none none true],
       { st with nextId := st.nextId + 1 })
    | none => (headList, st)
  let atoms := Shape fnt str cfg.features
  let (ns, _, n2) ← buildAtoms fnt cfg.yoffset cfg.preserve atoms false st.nextId
  let st := { st with nextId := n2 }
  let list := headList ++ ns
  let (list, st) :=
    match cfg.col with
    | some _ =>
      (list ++ [Node.startStop st.nextId .actionNone none none true],
       { st with nextId := st.nextId + 1 })
    | none => (list, st)
  let (list, st) :=
    match cfg.hl with
    | some _ =>
      (list ++ [Node.startStop st.nextId .actionNone hlStartId none false],
       { st with nextId := st.nextId + 1 })
    | none => (list, st)
  return (list, st)

/-- `Document.BuildNodelistFromString(ts, str)` (source lines 358-548):
the settings-resolution phase followed by the node-emission phase. -/
def BuildNodelistFromString (colors : List (String × Color))
    (defaultFeatures : List String) (st : FeState) (ts : Settings) (str : String) :
    Except CompileErr (List Node × FeState) := do
  let cfg ← resolveRun colors defaultFeatures ts
  buildRun cfg str st

/-! ## Observations on node lists and fixtures -/

/-- The family member stored at an exact (weight, style) position, if
any; `GetFontSource` succeeds exactly on declared members. -/
def memberAt (ff : FontFamily) (w : Int) (s : FontStyle) : Option FontSource :=
  ff.familyMember.bind (fun m => (mlookup m w).bind (fun i => mlookup i s))

/-- A settings map selecting a family, weight and style. -/
def mkFontSettings (ff : FontFamily) (w : Int) (s : FontStyle) : Settings :=
  [(.fontFamily, .famV ff), (.fontWeight, .weightV w), (.style, .styleV s)]

/-- Is the node a glue? -/
def isGlueB : Node → Bool
  | .glue _ _ _ _ _ _ => true
  | _ => false

/-- Number of glue nodes in a list. -/
def countGlue (ns : List Node) : Nat := ns.countP isGlueB

/-- Number of maximal runs of consecutive space atoms, given whether the
previously processed atom was a space. -/
def spaceRuns : List Atom → Bool → Nat
  | [], _ => 0
  | a :: r, prev =>
    if a.isSpace then (if prev then 0 else 1) + spaceRuns r true
    else spaceRuns r false

/-- Every glue node in the list carries the font's space metrics. -/
def glueFieldsOk (fnt : Font) (ns : List Node) : Prop :=
  ∀ i w st sh so sub, Node.glue i w st sh so sub ∈ ns →
    w = fnt.space ∧ st = fnt.spaceStretch ∧ sh = fnt.spaceShrink

/-- Node kinds (shapes forgetting ids and payloads). -/
inductive NKind where
  | kGlyph | kKern | kGlue | kRule | kPenalty | kStartStop
deriving DecidableEq, Repr

/-- The kind of a node. -/
def kindOf : Node → NKind
  | .glyph _ _ _ _ _ _ _ _ _ => .kGlyph
  | .kern _ _ => .kKern
  | .glue _ _ _ _ _ _ => .kGlue
  | .rule _ _ => .kRule
  | .penalty _ _ => .kPenalty
  | .startStop _ _ _ _ _ => .kStartStop

/-- A space atom produced by a shaping engine carries one of the three
whitespace components handled by the atom loop (anything else hits
`panic("unhandled whitespace type")`). -/
def wellShaped (a : Atom) : Prop :=
  a.isSpace = true → a.components = " " ∨ a.components = "\t" ∨ a.components = "\n"

instance wellShapedDec (a : Atom) : Decidable (wellShaped a) := by
  unfold wellShaped; infer_instance

/-- The node kinds produced for one atom under the whitespace-preserving
policy: a space becomes one Rule, a tab four Rules, a newline the
line-end Penalty/Glue sequence, a glyph atom a Glyph plus an optional
Kern. -/
def preservedKinds (a : Atom) : List NKind :=
  if a.isSpace then
    if a.components = " " then [.kRule]
    else if a.components = "\t" then [.kRule, .kRule, .kRule, .kRule]
    else [.kPenalty, .kGlue, .kPenalty]
  else if a.kernAfter ≠ 0 then [.kGlyph, .kKern] else [.kGlyph]

/-- Every rule node in the list has the font's fixed space width. -/
def ruleFieldsOk (fnt : Font) (ns : List Node) : Prop :=
  ∀ i w, Node.rule i w ∈ ns → w = fnt.space

/-- The font instance of the first node, when it is a glyph. -/
def firstFontNum : List Node → Option Nat
  | .glyph _ _ _ _ _ _ _ _ fn :: _ => some fn
  | _ => none

/-- Test fixture: a concrete font source. -/
def demoSource : FontSource :=
  { name := "regular", fontFeatures := [], source := "demo.ttf", index := 0 }

/-- Test fixture: a family declaring only one member, weight 400 normal. -/
def demoFamily : FontFamily :=
  AddMember { id := 0, name := "demo" } demoSource 400 .normal

/-- Test fixture: a family declaring only weights 400 and 700, both
normal style. -/
def demoFamily47 : FontFamily :=
  AddMember (AddMember { id := 1, name := "demo47" } demoSource 400 .normal)
    demoSource 700 .normal

/-- Test fixture: a font instance. -/
def demoFont : Font :=
  { num := 0, size := 786420, space := 262140, spaceStretch := 131070,
    spaceShrink := 87380 }

/-- Test fixture: settings selecting the demo family at the default size. -/
def demoSettings : Settings := [(.fontFamily, .famV demoFamily)]

/-- Test fixture: the same family at an explicit size of 20 scaled
points. -/
def demoSettings20 : Settings :=
  [(.fontFamily, .famV demoFamily), (.size, .scaled 20)]

/-- Three text runs on the same document: the first and third resolve to
the identical face and size, the middle one to another size of the same
face.  Returns the node lists of the first and third run plus the final
state. -/
def cacheRun3 : Except CompileErr (List Node × List Node × FeState) := do
  let (ns1, st1) ← BuildNodelistFromString [] [] {} demoSettings "a"
  let (_, st2) ← BuildNodelistFromString [] [] st1 demoSettings20 "a"
  let (ns3, st3) ← BuildNodelistFromString [] [] st2 demoSettings "a"
  return (ns1, ns3, st3)

/-! ## Rich-text tree and Mknodes (package frontend) -/

mutual
/-- An item of a rich-text span: literal text (a Go string), a nested
span (`*Text`), or an already-compiled node. -/
inductive Item where
  | str (s : String)
  | span (t : Txt)
  | nd (n : Node)
deriving Repr

/-- `frontend.Text`: a settings map plus an ordered item list. -/
inductive Txt where
  | mk (settings : Settings) (items : List Item)
deriving Repr
end

/-- The settings map of a text. -/
def Txt.settingsOf : Txt → Settings
  | .mk s _ => s

/-- The item list of a text. -/
def Txt.itemsOf : Txt → List Item
  | .mk _ i => i

/-- The settings-propagation loop of `Mknodes` (source lines 606-610):
every key of the enclosing scope's working map is copied into the child
map unless the child already defines it (child-declared keys win). -/
def inheritSettings (parent child : Settings) : Settings :=
  parent.foldl (fun c kv => if (mlookup c kv.1).isSome then c else mupdate c kv.1 kv.2)
    child

/-- The full settings mutation `Mknodes` applies to a child span before
recursing: the non-destructive merge followed by
`delete(t.Settings, SettingHyperlink)` (source line 612) — hyperlink
scope is lexical only and never inherited. -/
def childSettings (parent child : Settings) : Settings :=
  mdelete (inheritSettings parent child) .hyperlink

/-- The item loop of `Mknodes` (source lines 564-634), with the
`Mknodes` entry steps of a child span inlined at the recursive call:
`acc` is the list built so far, `hlStart` the id of the hyperlink start
opened at this level (plus its destination `hlDest`), and the function
also returns the item list as mutated by the settings propagation.  The
trailing close of a dangling hyperlink start (lines 628-634) happens in
the base case. -/
def mknodesItems (colors : List (String × Color)) (feats : List String)
    (settings : Settings) :
    List Item → List Node → Option Nat → String → FeState →
    Except CompileErr (List Node × List Item × FeState)
  | [], acc, hlStart, _, st =>
    match hlStart with
    | some sid =>
      .ok (acc ++ [.startStop st.nextId .actionNone (some sid) none false], [],
           { st with nextId := st.nextId + 1 })
    | none => .ok (acc, [], st)
  | .str s :: rest, acc, hlStart, hlDest, st =>
    -- lines 566-583: plain text closes an open hyperlink region first
    match hlStart with
    | some sid => do
      let endHL := Node.startStop st.nextId .actionNone (some sid) none false
      let st := { st with nextId := st.nextId + 1 }
      let (nl, st) ← BuildNodelistFromString colors feats st settings s
      let (ns, items2, st) ←
        mknodesItems colors feats settings rest (acc ++ [endHL] ++ nl) none hlDest st
      .ok (ns, .str s :: items2, st)
    | none => do
      let (nl, st) ← BuildNodelistFromString colors feats st settings s
      let (ns, items2, st) ←
        mknodesItems colors feats settings rest (acc ++ nl) none hlDest st
      .ok (ns, .str s :: items2, st)
  | .span (.mk cs citems) :: rest, acc, hlStart, hlDest, st => do
    -- lines 584-604: maybe open a hyperlink region for the child span
    let (acc, hlStart, hlDest, st) ←
      match hlStart with
      | none =>
        match mlookup cs .hyperlink with
        | some (.hyperV hl) =>
          pure (acc ++ [Node.startStop st.nextId .actionHyperlink none (some hl.uri) false],
                some st.nextId, hl.uri, { st with nextId := st.nextId + 1 })
        | some _ => throw CompileErr.typePanic
        | none => pure (acc, hlStart, hlDest, st)
      | some sid =>
        -- a region is already open: same or different destination, the
        -- code leaves the region as it is (the type assertion still runs)
        match mlookup cs .hyperlink with
        | some (.hyperV _) => pure (acc, some sid, hlDest, st)
        | some _ => throw CompileErr.typePanic
        | none => pure (acc, some sid, hlDest, st)
    -- lines 605-612: settings propagation and hyperlink stripping,
    -- mutating the child's map before the recursive call
    let cs2 := childSettings settings cs
    -- recursive Mknodes(t), its empty-items early return inlined
    if citems.isEmpty then do
      let (ns, items2, st) ← mknodesItems colors feats settings rest acc hlStart hlDest st
      .ok (ns, .span (.mk cs2 citems) :: items2, st)
    else do
      let (nl, citems2, st) ← mknodesItems colors feats cs2 citems [] none "" st
      let (ns, items2, st) ←
        mknodesItems colors feats settings rest (acc ++ nl) hlStart hlDest st
      .ok (ns, .span (.mk cs2 citems2) :: items2, st)
  | .nd n :: rest, acc, hlStart, hlDest, st => do
    -- lines 621-623: an embedded node is appended unchanged
    let (ns, items2, st) ← mknodesItems colors feats settings rest (acc ++ [n]) hlStart hlDest st
    .ok (ns, .nd n :: items2, st)

/-- `Document.Mknodes(ts)`: empty item lists yield nil/nil/nil (source
lines 554-556); otherwise the item loop runs on a copy of the text's own
settings.  Returns the node list, the final state and the input tree as
mutated by the settings propagation. -/
def Mknodes (colors : List (String × Color)) (feats : List String) (t : Txt)
    (st : FeState) : Except CompileErr (List Node × FeState × Txt) :=
  match t with
  | .mk settings items =>
    if items.isEmpty then .ok ([], st, .mk settings items)
    else do
      let (ns, items2, st2) ← mknodesItems colors feats settings items [] none "" st
      .ok (ns, st2, .mk settings items2)

/-- The tree mutation `Mknodes` performs on the item list: every child
span's settings map becomes `childSettings` of the enclosing working
map, recursively. -/
def updateItems (settings : Settings) : List Item → List Item
  | [] => []
  | .span (.mk cs citems) :: rest =>
    .span (.mk (childSettings settings cs)
      (updateItems (childSettings settings cs) citems)) :: updateItems settings rest
  | .str s :: rest => .str s :: updateItems settings rest
  | .nd n :: rest => .nd n :: updateItems settings rest

/-- No embedded pre-compiled node item anywhere in the item tree. -/
def noEmbeddedB : List Item → Bool
  | [] => true
  | .nd _ :: _ => false
  | .span (.mk _ citems) :: rest => noEmbeddedB citems && noEmbeddedB rest
  | .str _ :: rest => noEmbeddedB rest

/-! ## FormatParagraph (package frontend) -/

/-- The `paragraph` option record filled by the `TypesettingOption`
closures. -/
structure Para where
  alignment : HAlign := .halignDefault
  fontfamilyOpt : Option FontFamily := none
  fontsize : Int := 0
  hsize : Int := 0
  indentLeft : Int := 0
  indentLeftRows : Int := 0
  leading : Int := 0
deriving Repr

/-- Application of the option closures, in order. -/
def applyOpts (opts : List (Para → Para)) (p : Para) : Para :=
  opts.foldl (fun q f => f q) p

/-- `Document.FormatParagraph(te, hsize, opts...)` (source lines
266-330).  The empty-items early return (lines 267-271) vpacks a single
glue and reports no error.  Otherwise the options are applied, the
chosen size and font family are written into the input text's settings
map (lines 286-291), and the list compiled by `Mknodes` is handed to the
external hyphenation/line-breaking collaborators — modelled from the
spec: hyphenation leaves the list shape unchanged, `AppendLineEndAfter`
appends the line-end sequence, and `Linebreak` packs the list into a
vertical box.  Returns the box, the mutated text and the state. -/
def FormatParagraph (colors : List (String × Color)) (feats : List String)
    (te : Txt) (hsize : Int) (opts : List (Para → Para)) (st : FeState) :
    Except CompileErr (VList × Txt × FeState) :=
  match te with
  | .mk settings items =>
    if items.isEmpty then
      .ok (⟨st.nextId + 1, [.glue st.nextId 0 0 0 0 .glueNormal]⟩, te,
           { st with nextId := st.nextId + 2 })
    else do
      let p0 : Para := { hsize := hsize }
      let p0 ←
        match mlookup settings .hAlign with
        | some (.halignV a) => pure { p0 with alignment := a }
        | some _ => throw CompileErr.typePanic
        | none => pure p0
      let p := applyOpts opts p0
      let settings := if p.fontsize ≠ 0 then mupdate settings .size (.scaled p.fontsize)
        else settings
      let settings :=
        match p.fontfamilyOpt with
        | some ff => mupdate settings .fontFamily (.famV ff)
        | none => settings
      let (nl, st, te2) ← Mknodes colors feats (.mk settings items) st
      let nl := nl ++ appendLineEnd st.nextId
      let st := { st with nextId := st.nextId + 3 }
      .ok (⟨st.nextId, nl⟩, te2, { st with nextId := st.nextId + 1 })

/-! ## Start/stop well-formedness -/

/-- The back-reference of a stop node (`none` for anything that is not a
stop). -/
def stopRef : Node → Option Nat
  | .startStop _ _ (some sid) _ _ => some sid
  | _ => none

/-- Is the node a start marker (a `StartStop` without back-reference)? -/
def isStartB : Node → Bool
  | .startStop _ _ none _ _ => true
  | _ => false

/-- Number of start markers with id `sid` in a list. -/
def startCount (pre : List Node) (sid : Nat) : Nat :=
  pre.countP (fun m => isStartB m && idOf m == sid)

/-- Scan of the stop invariant: every stop must have exactly one
matching start strictly earlier (in `pre ++ the prefix scanned so
far`). -/
def stopsOkAux : List Node → List Node → Bool
  | _, [] => true
  | pre, n :: rest =>
    (match stopRef n with
     | some sid => startCount pre sid == 1
     | none => true) && stopsOkAux (pre ++ [n]) rest

/-- Every stop node of the list has exactly one matching start strictly
earlier in the list. -/
def stopsOkB (ns : List Node) : Bool := stopsOkAux [] ns

/-- The stop invariant of a compile result (vacuously true for failed
compiles, which produce no list). -/
def mknodesStopsOk (colors : List (String × Color)) (feats : List String)
    (t : Txt) (st : FeState) : Bool :=
  match Mknodes colors feats t st with
  | .ok (ns, _, _) => stopsOkB ns
  | .error _ => true

/-- All node ids in the list lie in `[lo, hi)`. -/
def idsIn (lo hi : Nat) (ns : List Node) : Prop :=
  ∀ n ∈ ns, lo ≤ idOf n ∧ idOf n < hi

/-- All stop back-references in the list are at least `lo`. -/
def refsGE (lo : Nat) (ns : List Node) : Prop :=
  ∀ n ∈ ns, ∀ sid, stopRef n = some sid → lo ≤ sid

/-- A self-contained compiled segment: ids in `[lo, hi)`, stop
references not below `lo`, and the stop invariant holds internally. -/
def GoodSeg (lo hi : Nat) (ns : List Node) : Prop :=
  idsIn lo hi ns ∧ refsGE lo ns ∧ stopsOkB ns = true

/-! ## Additional observation definitions and fixtures -/

def plainSeg (lo hi : Nat) (ns : List Node) : Prop :=
  idsIn lo hi ns ∧ ∀ x ∈ ns, stopRef x = none ∧ isStartB x = false

def safeS (colors : List (String × Color)) (s : Settings) : Prop :=
  mlookup s .hyperlink = none ∨ resolveColor colors s = none

def linkTreeItems : List Item :=
  [.str "a", .span (.mk [(.hyperlink, .hyperV ⟨"https://example.com"⟩)] [.str "b"]), .str "c"]

def bothSettings : Settings :=
  [(.fontFamily, .famV demoFamily), (.hyperlink, .hyperV ⟨"https://example.com"⟩),
   (.color, .colorV ⟨"red"⟩)]

def spanOnlyItems : List Item :=
  [.span (.mk [(.hyperlink, .hyperV ⟨"https://example.com"⟩)] [])]

def spanOnlyNodes : List Node :=
  [.startStop 0 .actionHyperlink none (some "https://example.com") false,
   .startStop 1 .actionNone (some 0) none false]

def parentDemo : Settings := [(.size, .scaled 10), (.fontFamily, .famV demoFamily)]

def childDemo : Settings := [(.size, .scaled 20)]

def bothNL : List Node :=
  [.startStop 1 .actionNone none none true,
   .glyph 2 65 "A" 786420 786420 0 0 false 0,
   .startStop 3 .actionNone none none true,
   .startStop 4 .actionNone (some 0) none false]

def bothST : FeState :=
  ⟨5, [(("demo.ttf", 0), [(786420, ⟨0, 786420, 262140, 131070, 87380⟩)])], 1,
   [(("demo.ttf", 0), 786420)]⟩

/-! ### Lemmas about the unit system -/

theorem truncDiv_close (m : Int) (d : Nat) (hd : 0 < d) :
    |m - (d : Int) * truncDiv m d| ≤ (d : Int) - 1 := by
  have hd' : (0 : Int) < d := by exact_mod_cast hd
  rw [abs_le]
  unfold truncDiv
  split
  · have h1 := Int.ediv_add_emod (-m) d
    have h2 := Int.emod_nonneg (-m) (by omega : (d : Int) ≠ 0)
    have h3 := Int.emod_lt_of_pos (-m) hd'
    simp only [mul_neg, neg_neg] at *
    omega
  · have h1 := Int.ediv_add_emod m d
    have h2 := Int.emod_nonneg m (by omega : (d : Int) ≠ 0)
    have h3 := Int.emod_lt_of_pos m hd'
    omega

theorem roundHalfAway_close (n : Int) (d : Nat) (hd : 0 < d) :
    |2 * (d : Int) * roundHalfAway n d - 2 * n| ≤ (d : Int) := by
  have hd' : (0 : Int) < 2 * d := by positivity
  rw [abs_le]
  unfold roundHalfAway
  split
  · have h1 := Int.ediv_add_emod (2 * (-n) + d) (2 * d)
    have h2 := Int.emod_nonneg (2 * (-n) + d) (by omega : (2 * d : Int) ≠ 0)
    have h3 := Int.emod_lt_of_pos (2 * (-n) + d) hd'
    simp only [mul_neg, neg_neg] at *
    omega
  · have h1 := Int.ediv_add_emod (2 * n + d) (2 * d)
    have h2 := Int.emod_nonneg (2 * n + d) (by omega : (2 * d : Int) ≠ 0)
    have h3 := Int.emod_lt_of_pos (2 * n + d) hd'
    omega

/-- Reparsing the printed value moves the scaled point by at most 328
units: 0.005pt of printing precision (327.675 scaled points) plus one
unit of final truncation. -/
theorem roundTripPt_close (x : Int) : |roundTripPt x - x| ≤ 328 := by
  have L1 := roundHalfAway_close (100 * x) 0xffff (by norm_num)
  have L2 := truncDiv_close (stringValNum x * Factor) 100 (by norm_num)
  unfold roundTripPt spVal
  unfold stringValNum at *
  unfold Factor at *
  rw [abs_le] at *
  push_cast at L1 L2 ⊢
  omega

theorem numChar_of_digit (c : Char) (h : c.isDigit = true) : numChar c = true := by
  simp [numChar, h]

theorem all_digits_of_dropWhile_empty (l : List Char)
    (h : (l.dropWhile (·.isDigit)).isEmpty = true) : ∀ c ∈ l, c.isDigit = true := by
  intro c hc
  have hsplit := List.takeWhile_append_dropWhile (p := fun x => x.isDigit) (l := l)
  rw [← hsplit] at hc
  rcases List.mem_append.mp hc with h1 | h1
  · exact List.mem_takeWhile_imp h1
  · rw [List.isEmpty_iff] at h
    rw [h] at h1
    simp at h1

theorem parseExpTail_chars (n : Int) (d : Nat) (e : Bool) (r1 : List Char) (f : Frac)
    (h : parseExpTail n d e r1 = some f) : ∀ c ∈ r1, numChar c = true := by
  intro c hc
  simp only [parseExpTail] at h
  by_cases hguard :
      ((r1.takeWhile (fun x => x.isDigit)).isEmpty
        || !(r1.dropWhile (fun x => x.isDigit)).isEmpty) = true
  · rw [if_pos hguard] at h
    exact absurd h (by simp)
  · have hb := Bool.or_eq_false_iff.mp (Bool.not_eq_true _ |>.mp hguard)
    have hdw : (r1.dropWhile (fun x => x.isDigit)).isEmpty = true := by
      simpa using hb.2
    exact numChar_of_digit c (all_digits_of_dropWhile_empty r1 hdw c hc)

theorem parseExpPart_chars (n : Int) (d : Nat) (cs3 : List Char) (f : Frac)
    (h : parseExpPart n d cs3 = some f) : ∀ c ∈ cs3, numChar c = true := by
  intro c hc
  cases cs3 with
  | nil => simp at hc
  | cons c0 r =>
    by_cases h0 : c0 = 'e'
    case neg => simp [parseExpPart, h0] at h
    subst h0
    rcases List.mem_cons.mp hc with rfl | hcr
    · decide
    cases r with
    | nil => simp at hcr
    | cons c2 r2 =>
      by_cases h2 : c2 = '+'
      · subst h2
        simp only [parseExpPart, if_pos rfl] at h
        simp at h
        rcases List.mem_cons.mp hcr with rfl | hcr2
        · decide
        · exact parseExpTail_chars _ _ _ _ _ h c hcr2
      · by_cases h3 : c2 = '-'
        · subst h3
          simp [parseExpPart, h2] at h
          rcases List.mem_cons.mp hcr with rfl | hcr2
          · decide
          · exact parseExpTail_chars _ _ _ _ _ h c hcr2
        · simp [parseExpPart, h2, h3] at h
          exact parseExpTail_chars _ _ _ _ _ h c hcr

theorem parseMantissa_chars (sgn : Int) (cs1 : List Char) (f : Frac)
    (h : parseMantissa sgn cs1 = some f) : ∀ c ∈ cs1, numChar c = true := by
  intro c hc
  have hsplit := List.takeWhile_append_dropWhile (p := fun x => x.isDigit) (l := cs1)
  simp only [parseMantissa] at h
  rw [← hsplit] at hc
  rcases List.mem_append.mp hc with h1 | h1
  · exact numChar_of_digit c (List.mem_takeWhile_imp h1)
  · cases hc2 : cs1.dropWhile (fun x => x.isDigit) with
    | nil => rw [hc2] at h1; simp at h1
    | cons c0 r =>
      rw [hc2] at h1 h
      by_cases h0 : c0 = '.'
      · subst h0
        simp only [if_pos rfl] at h
        rcases List.mem_cons.mp h1 with rfl | hcr
        · decide
        · have hs2 := List.takeWhile_append_dropWhile (p := fun x => x.isDigit) (l := r)
          by_cases hg : ((cs1.takeWhile (fun x => x.isDigit)).isEmpty
              && (r.takeWhile (fun x => x.isDigit)).isEmpty) = true
          · rw [if_pos hg] at h
            exact absurd h (by simp)
          · rw [if_neg hg] at h
            rw [← hs2] at hcr
            rcases List.mem_append.mp hcr with h2 | h2
            · exact numChar_of_digit c (List.mem_takeWhile_imp h2)
            · exact parseExpPart_chars _ _ _ _ h c h2
      · simp only [if_neg h0] at h
        by_cases hg : (cs1.takeWhile (fun x => x.isDigit)).isEmpty = true
        · rw [if_pos hg] at h
          exact absurd h (by simp)
        · rw [if_neg hg] at h
          exact parseExpPart_chars _ _ _ _ h c h1

theorem parseFloatCore_chars (cs : List Char) (f : Frac)
    (h : parseFloatCore cs = some f) : ∀ c ∈ cs, numChar c = true := by
  intro c hc
  cases cs with
  | nil => simp at hc
  | cons c0 r =>
    by_cases h0 : c0 = '+'
    · subst h0
      simp only [parseFloatCore, if_pos rfl] at h
      rcases List.mem_cons.mp hc with rfl | hcr
      · decide
      · exact parseMantissa_chars _ _ _ h c hcr
    · by_cases h1 : c0 = '-'
      · subst h1
        simp [parseFloatCore, h0] at h
        rcases List.mem_cons.mp hc with rfl | hcr
        · decide
        · exact parseMantissa_chars _ _ _ h c hcr
      · simp only [parseFloatCore, if_neg h0, if_neg h1] at h
        exact parseMantissa_chars _ _ _ h c hc

theorem parseFloat_chars (cs : List Char) (f : Frac)
    (h : parseFloat cs = some f) : ∀ c ∈ cs, numChar c = true := by
  have hex : ∃ f0, parseFloatCore cs = some f0 := by
    unfold parseFloat at h
    cases hcore : parseFloatCore cs with
    | none => rw [hcore] at h; exact absurd h (by simp)
    | some f0 => exact ⟨f0, rfl⟩
  obtain ⟨f0, hf0⟩ := hex
  exact parseFloatCore_chars cs f0 hf0

theorem unitAt_none_of_numChar (c : Char) (cs : List Char) (h : numChar c = true) :
    unitAt (c :: cs) = none := by
  have hm : c ≠ 'm' := by rintro rfl; exact absurd h (by decide)
  have hc : c ≠ 'c' := by rintro rfl; exact absurd h (by decide)
  have hi : c ≠ 'i' := by rintro rfl; exact absurd h (by decide)
  have hp : c ≠ 'p' := by rintro rfl; exact absurd h (by decide)
  simp [unitAt, hm, hc, hi, hp]

theorem findTok_append (pre rest : List Char) (hpre : ∀ c ∈ pre, numChar c = true)
    (u : UnitTok) (t : List Char) (hrest : unitAt rest = some (u, t)) :
    findTok (pre ++ rest) = some (pre, u, t) := by
  induction pre with
  | nil =>
    cases rest with
    | nil => simp [unitAt] at hrest
    | cons c cs => simp [findTok, hrest]
  | cons c pre ih =>
    have hnone := unitAt_none_of_numChar c (pre ++ rest) (hpre c (by simp))
    have := ih (fun x hx => hpre x (by simp [hx]))
    simp [findTok, hnone, this]

theorem unitAt_tokChars (u : UnitTok) (t : List Char) (ht : findTok t = none) :
    unitAt (tokChars u ++ t) = some (u, t) := by
  cases u <;> simp [tokChars, unitAt]
  case m =>
    cases t with
    | nil => rfl
    | cons c2 cs2 =>
      have hsome : (unitAt (c2 :: cs2)).isSome = true → False := by
        intro h
        obtain ⟨⟨u', r'⟩, hu⟩ := Option.isSome_iff_exists.mp h
        simp [findTok, hu] at ht
      have hne : c2 ≠ 'm' := by
        rintro rfl
        apply hsome
        cases cs2 with
        | nil => rfl
        | cons c3 cs3 =>
          by_cases h3 : c3 = 'm' <;> simp [unitAt, h3]
      simp [hne]


/-! ### Lemmas about the compiler -/

theorem buildAtoms_collapse (fnt : Font) (yo : Int) :
    ∀ (atoms : List Atom) (lg : Bool) (n : Nat),
      ∃ ns lg2 n2, buildAtoms fnt yo false atoms lg n = .ok (ns, lg2, n2) ∧
        countGlue ns = spaceRuns atoms lg ∧ glueFieldsOk fnt ns := by
  intro atoms
  induction atoms with
  | nil =>
    intro lg n
    exact ⟨[], lg, n, rfl, rfl, by intro _ _ _ _ _ _ h; simp at h⟩
  | cons a rest ih =>
    intro lg n
    by_cases hsp : a.isSpace = true
    · by_cases hlg : lg = true
      · obtain ⟨ns2, lg2, n2, h1, h2, h3⟩ := ih true n
        refine ⟨ns2, lg2, n2, ?_, ?_, h3⟩
        · simp [buildAtoms, atomStep, hsp, hlg, bind, Except.bind, h1]
        · simp [spaceRuns, hsp, hlg, h2]
      · obtain ⟨ns2, lg2, n2, h1, h2, h3⟩ := ih true (n + 1)
        refine ⟨.glue n fnt.space fnt.spaceStretch fnt.spaceShrink 0 .glueNormal :: ns2,
          lg2, n2, ?_, ?_, ?_⟩
        · simp [buildAtoms, atomStep, hsp, hlg, bind, Except.bind, h1]
        · simp [countGlue, spaceRuns, hsp, hlg, isGlueB] at h2 ⊢
          omega
        · intro i w st sh so sub hmem
          rcases List.mem_cons.mp hmem with heq | hmem2
          · injection heq with h1' h2' h3' h4' h5' h6'
            exact ⟨h2', h3', h4'⟩
          · exact h3 i w st sh so sub hmem2
    · by_cases hk : a.kernAfter ≠ 0
      · obtain ⟨ns2, lg2, n2, h1, h2, h3⟩ := ih false (n + 2)
        refine ⟨.glyph n a.codepoint a.components a.advance a.height a.depth yo
          a.hyphenate fnt.num :: .kern (n + 1) a.kernAfter :: ns2, lg2, n2, ?_, ?_, ?_⟩
        · simp [buildAtoms, atomStep, hsp, hk, bind, Except.bind, h1]
        · simp [countGlue, spaceRuns, hsp, isGlueB] at h2 ⊢
          exact h2
        · intro i w st sh so sub hmem
          rcases List.mem_cons.mp hmem with heq | hmem2
          · exact absurd heq (by simp)
          · rcases List.mem_cons.mp hmem2 with heq | hmem3
            · exact absurd heq (by simp)
            · exact h3 i w st sh so sub hmem3
      · obtain ⟨ns2, lg2, n2, h1, h2, h3⟩ := ih false (n + 1)
        refine ⟨.glyph n a.codepoint a.components a.advance a.height a.depth yo
          a.hyphenate fnt.num :: ns2, lg2, n2, ?_, ?_, ?_⟩
        · simp [buildAtoms, atomStep, hsp, hk, bind, Except.bind, h1]
        · simp [countGlue, spaceRuns, hsp, isGlueB] at h2 ⊢
          exact h2
        · intro i w st sh so sub hmem
          rcases List.mem_cons.mp hmem with heq | hmem2
          · exact absurd heq (by simp)
          · exact h3 i w st sh so sub hmem2


theorem buildAtoms_preserve (fnt : Font) (yo : Int) :
    ∀ (atoms : List Atom) (lg : Bool) (n : Nat), (∀ a ∈ atoms, wellShaped a) →
      ∃ ns lg2 n2, buildAtoms fnt yo true atoms lg n = .ok (ns, lg2, n2) ∧
        ns.map kindOf = atoms.flatMap preservedKinds ∧ ruleFieldsOk fnt ns := by
  intro atoms
  induction atoms with
  | nil =>
    intro lg n _
    exact ⟨[], lg, n, rfl, rfl, by intro _ _ h; simp at h⟩
  | cons a rest ih =>
    intro lg n hws
    have hrest : ∀ x ∈ rest, wellShaped x := fun x hx => hws x (by simp [hx])
    by_cases hsp : a.isSpace = true
    · rcases hws a (by simp) hsp with hcomp | hcomp | hcomp
      · obtain ⟨ns2, lg2, n2, h1, h2, h3⟩ := ih true (n + 1) hrest
        refine ⟨.rule n fnt.space :: ns2, lg2, n2, ?_, ?_, ?_⟩
        · simp [buildAtoms, atomStep, hsp, hcomp, bind, Except.bind, h1]
        · simp [preservedKinds, hsp, hcomp, kindOf, h2]
        · intro i w hmem
          rcases List.mem_cons.mp hmem with heq | hmem2
          · exact (Node.rule.inj heq).2
          · exact h3 i w hmem2
      · obtain ⟨ns2, lg2, n2, h1, h2, h3⟩ := ih true (n + 4) hrest
        refine ⟨.rule n fnt.space :: .rule (n + 1) fnt.space :: .rule (n + 2) fnt.space ::
          .rule (n + 3) fnt.space :: ns2, lg2, n2, ?_, ?_, ?_⟩
        · simp [buildAtoms, atomStep, hsp, hcomp, bind, Except.bind, h1]
        · simp [preservedKinds, hsp, hcomp, kindOf, h2]
        · intro i w hmem
          simp only [List.mem_cons] at hmem
          rcases hmem with heq | heq | heq | heq | hmem2
          · exact (Node.rule.inj heq).2
          · exact (Node.rule.inj heq).2
          · exact (Node.rule.inj heq).2
          · exact (Node.rule.inj heq).2
          · exact h3 i w hmem2
      · obtain ⟨ns2, lg2, n2, h1, h2, h3⟩ := ih true (n + 3) hrest
        refine ⟨appendLineEnd n ++ ns2, lg2, n2, ?_, ?_, ?_⟩
        · simp [buildAtoms, atomStep, hsp, hcomp, bind, Except.bind, h1]
        · simp [preservedKinds, hsp, hcomp, kindOf, h2, appendLineEnd]
        · intro i w hmem
          rcases List.mem_append.mp hmem with hmem1 | hmem2
          · simp [appendLineEnd] at hmem1
          · exact h3 i w hmem2
    · by_cases hk : a.kernAfter ≠ 0
      · obtain ⟨ns2, lg2, n2, h1, h2, h3⟩ := ih false (n + 2) hrest
        refine ⟨.glyph n a.codepoint a.components a.advance a.height a.depth yo
          a.hyphenate fnt.num :: .kern (n + 1) a.kernAfter :: ns2, lg2, n2, ?_, ?_, ?_⟩
        · simp [buildAtoms, atomStep, hsp, hk, bind, Except.bind, h1]
        · simp [preservedKinds, hsp, hk, kindOf, h2]
        · intro i w hmem
          simp only [List.mem_cons] at hmem
          rcases hmem with heq | heq | hmem2
          · exact absurd heq (by simp)
          · exact absurd heq (by simp)
          · exact h3 i w hmem2
      · obtain ⟨ns2, lg2, n2, h1, h2, h3⟩ := ih false (n + 1) hrest
        refine ⟨.glyph n a.codepoint a.components a.advance a.height a.depth yo
          a.hyphenate fnt.num :: ns2, lg2, n2, ?_, ?_, ?_⟩
        · simp [buildAtoms, atomStep, hsp, hk, bind, Except.bind, h1]
        · simp [preservedKinds, hsp, hk, kindOf, h2]
        · intro i w hmem
          rcases List.mem_cons.mp hmem with heq | hmem2
          · exact absurd heq (by simp)
          · exact h3 i w hmem2


theorem getFontSource_err_of_miss (ff : FontFamily) (w : Int) (s : FontStyle)
    (h : memberAt ff w s = none) : ∃ e, GetFontSource ff w s = .error e := by
  unfold memberAt at h
  cases hm : ff.familyMember with
  | none => exact ⟨.errEmptyFF, by simp [GetFontSource, hm]⟩
  | some m =>
    rw [hm] at h
    simp only [Option.some_bind] at h
    cases hw : mlookup m w with
    | none => exact ⟨.errUnfulfilledFamilyRequest, by simp [GetFontSource, hm, hw]⟩
    | some inner =>
      rw [hw] at h
      simp only [Option.some_bind] at h
      exact ⟨.errUnfulfilledFamilyRequest, by simp [GetFontSource, hm, hw, h]⟩

theorem buildNodelist_fontErr (colors : List (String × Color)) (feats : List String)
    (st : FeState) (str : String) (ff : FontFamily) (w : Int) (s : FontStyle) (e : FFErr)
    (hg : GetFontSource ff w s = .error e) :
    BuildNodelistFromString colors feats st (mkFontSettings ff w s) str
      = .error (.fontErr e) := by
  simp [BuildNodelistFromString, resolveRun, mkFontSettings, resolveWeight,
    resolveStyle, resolveFamily, resolveSize, resolveColor, resolveHyperlink,
    resolvePreserve, resolveYOffset, resolveFeatures, mlookup, hg, bind, Except.bind]


/-! ### Claim theorems for the unit system -/

/-- C6 (counterexample): the internal unit is not 1/65536 of a point.
`Factor` is `0xffff = 65535`, so `Sp("1pt")` returns 65535, not 65536,
and `ScaledPoint(65536).ToPT()` is `65536/65535`, not `1.0`. -/
theorem factor_65536_counterexample :
    Sp "1pt" = some 65535 ∧ (65535 : Int) ≠ 65536 ∧ ToPT 65536 ≠ 1 := by
  refine ⟨by decide, by decide, ?_⟩
  norm_num [ToPT, Factor]

/-- C6 (amended): the internal length unit is exactly 1/65535 of a
typographic point: one DTP point equals `Factor = 0xffff = 65535` base
units, `Sp("1pt")` returns 65535, and `ScaledPoint(65535).ToPT()`
returns 1.0. -/
theorem factor_is_65535 :
    Factor = 65535 ∧ Sp "1pt" = some 65535 ∧ ToPT 65535 = 1 := by
  refine ⟨by decide, by decide, ?_⟩
  norm_num [ToPT, Factor]

/-- C7: round-trip law and exact conversion equalities.  For every
supported unit string `s` parsed by `Sp` to the scaled length `x`,
reparsing the printed value (`Sp(x.String() + "pt")`, whose value is
`roundTripPt x`) moves the length by at most 328 scaled points, i.e. by
no more than the 0.005pt rounding of the `String` formatting plus the
final truncation; moreover `Sp("1in")` is exactly `72 * Factor` and
`Sp("2.54cm") = Sp("1in")`. -/
theorem sp_roundtrip_and_exact_conversions :
    (∀ (s : String) (x : Int), Sp s = some x → |roundTripPt x - x| ≤ 328)
    ∧ Sp "1in" = some (72 * Factor)
    ∧ Sp "2.54cm" = Sp "1in" :=
  ⟨fun _ x _ => roundTripPt_close x, by decide, by decide⟩

/-- Witness for C7 at the concrete input `"1in"`. -/
theorem sp_roundtrip_and_exact_conversions_witness :
    |roundTripPt 4718520 - 4718520| ≤ 328 :=
  sp_roundtrip_and_exact_conversions.1 "1in" 4718520 (by decide)

/-- C10: `Sp` accepts malformed strings consisting of a parseable
number, a unit token, and trailing characters containing no further unit
token: it returns the value of the number-plus-unit prefix and no error.
`spCore` is `Sp` after lowercasing; `parseFloat pre = some f` states
that the number prefix is parseable, `findTok t = none` that the
trailing characters contain no unit token.  In particular
`Sp("1ptabc")` succeeds with the value of `"1pt"`. -/
theorem sp_accepts_trailing_garbage :
    (∀ (pre t : List Char) (u : UnitTok) (f : Frac),
      parseFloat pre = some f → findTok t = none →
      spCore (pre ++ (tokChars u ++ t)) = some (spVal f u))
    ∧ Sp "1ptabc" = some 65535 ∧ Sp "1ptabc" = Sp "1pt" := by
  refine ⟨?_, by decide, by decide⟩
  intro pre t u f hp ht
  have hchars : ∀ c ∈ pre, numChar c = true := parseFloat_chars pre f hp
  have hu := unitAt_tokChars u t ht
  have hf := findTok_append pre (tokChars u ++ t) hchars u t hu
  simp [spCore, hf, ht, hp]

/-- Witness for C10 at the concrete input `"1" ++ "pt" ++ "abc"`. -/
theorem sp_accepts_trailing_garbage_witness :
    spCore (['1'] ++ (tokChars .pt ++ ['a', 'b', 'c'])) = some (spVal (1, 1) .pt) :=
  sp_accepts_trailing_garbage.1 ['1'] ['a', 'b', 'c'] .pt (1, 1) (by decide) (by decide)

/-! ### Claim theorems for the font resolver and the atom loop -/

/-- C1: an exact (weight, style) miss — or an empty family — makes
`GetFontSource` return a distinguishable error (`ErrEmptyFF` or
`ErrUnfulfilledFamilyRequest`), and `BuildNodelistFromString` fails the
enclosing compile with that same error; in particular weight 650 in a
family declaring only 400 and 700 yields the not-found error and the
compile fails, never falling back to a declared member. -/
theorem font_exact_miss_fails_compile :
    (∀ (ff : FontFamily) (w : Int) (s : FontStyle), memberAt ff w s = none →
      ∃ e : FFErr, GetFontSource ff w s = .error e ∧
        ∀ (colors : List (String × Color)) (feats : List String) (st : FeState)
          (str : String),
          BuildNodelistFromString colors feats st (mkFontSettings ff w s) str
            = .error (.fontErr e))
    ∧ GetFontSource demoFamily47 650 .normal = .error .errUnfulfilledFamilyRequest
    ∧ BuildNodelistFromString [] [] {} (mkFontSettings demoFamily47 650 .normal) "abc"
        = .error (.fontErr .errUnfulfilledFamilyRequest) := by
  refine ⟨?_, by decide, by decide⟩
  intro ff w s hmiss
  obtain ⟨e, he⟩ := getFontSource_err_of_miss ff w s hmiss
  exact ⟨e, he, fun colors feats st str => buildNodelist_fontErr colors feats st str ff w s e he⟩

/-- Witness for C1 at the concrete weight-650 request against the family
declaring only 400 and 700. -/
theorem font_exact_miss_fails_compile_witness :
    memberAt demoFamily47 650 FontStyle.normal = none ∧
    ∃ e : FFErr, GetFontSource demoFamily47 650 .normal = .error e ∧
      BuildNodelistFromString [] [] {} (mkFontSettings demoFamily47 650 .normal) "abc"
        = .error (.fontErr e) :=
  ⟨by decide,
   (font_exact_miss_fails_compile.1 demoFamily47 650 .normal (by decide)).elim
     (fun e he => ⟨e, he.1, he.2 [] [] {} "abc"⟩)⟩

/-- C3: whitespace policy of the atom loop (source lines 473-530).
Collapsing policy (`SettingPreserveWhitespace` absent or false): the
number of glue nodes equals the number of maximal runs of consecutive
space atoms — so a run of two or more spaces yields exactly one glue —
and every glue carries the font's space stretch/shrink metrics.
Preserving policy: the emitted node kinds are exactly, atom by atom, one
fixed-width Rule per space, four per tab, and the line-end Penalty/Glue
sequence per newline (glyph atoms unchanged), with every rule at the
font's fixed space width. -/
theorem whitespace_policy_nodes :
    (∀ (fnt : Font) (yo : Int) (atoms : List Atom) (lg : Bool) (n : Nat),
      ∃ ns lg2 n2, buildAtoms fnt yo false atoms lg n = .ok (ns, lg2, n2) ∧
        countGlue ns = spaceRuns atoms lg ∧ glueFieldsOk fnt ns)
    ∧ (∀ (fnt : Font) (yo : Int) (atoms : List Atom) (lg : Bool) (n : Nat),
        (∀ a ∈ atoms, wellShaped a) →
        ∃ ns lg2 n2, buildAtoms fnt yo true atoms lg n = .ok (ns, lg2, n2) ∧
          ns.map kindOf = atoms.flatMap preservedKinds ∧ ruleFieldsOk fnt ns) :=
  ⟨fun fnt yo atoms lg n => buildAtoms_collapse fnt yo atoms lg n,
   fun fnt yo atoms lg n h => buildAtoms_preserve fnt yo atoms lg n h⟩

/-- Witness for C3: the shaped atoms of `"a  b"` under the collapsing
policy and of `" \t\n"` under the preserving policy. -/
theorem whitespace_policy_nodes_witness :
    (∃ ns lg2 n2,
      buildAtoms demoFont 0 false (Shape demoFont "a  b" []) false 0 = .ok (ns, lg2, n2) ∧
        countGlue ns = spaceRuns (Shape demoFont "a  b" []) false ∧ glueFieldsOk demoFont ns)
    ∧ (∃ ns lg2 n2,
      buildAtoms demoFont 0 true (Shape demoFont " \t\n" []) false 0 = .ok (ns, lg2, n2) ∧
        ns.map kindOf = (Shape demoFont " \t\n" []).flatMap preservedKinds ∧
        ruleFieldsOk demoFont ns) :=
  ⟨whitespace_policy_nodes.1 demoFont 0 (Shape demoFont "a  b" []) false 0,
   whitespace_policy_nodes.2 demoFont 0 (Shape demoFont " \t\n" []) false 0 (by decide)⟩

/-- C4 (code bug): the font-instance cache wipes itself.  Line 435
replaces the whole `usedFonts` map whenever `face` is missing and line
438 replaces the per-face map whenever `fontsize` is missing, so the
sequence (face, size1), (face, size2), (face, size1) calls `CreateFont`
twice for the key (face, size1) — three `CreateFont` calls in total —
and the first and third runs reference different font instances
(allocation numbers 0 and 2) despite resolving the identical face and
size. -/
theorem font_cache_recreates_instances :
    cacheRun3.map (fun r =>
      (r.2.2.createLog.countP (fun en => en == (("demo.ttf", 0), 12 * Factor)),
       r.2.2.nextFontNum, firstFontNum r.1, firstFontNum r.2.1))
    = .ok (2, 3, some 0, some 2) := by decide

/-! ### Lemmas and claim theorems for Mknodes and the tree mutation -/

theorem stopsOkAux_append (a : List Node) :
    ∀ (pre b : List Node),
      stopsOkAux pre (a ++ b) = (stopsOkAux pre a && stopsOkAux (pre ++ a) b) := by
  induction a with
  | nil => intro pre b; simp [stopsOkAux]
  | cons n rest ih =>
    intro pre b
    show stopsOkAux pre (n :: (rest ++ b)) = _
    simp only [stopsOkAux]
    rw [ih (pre ++ [n]) b]
    simp [List.append_assoc, Bool.and_assoc]

theorem stopsOkAux_of_noStops (b : List Node) :
    ∀ pre, (∀ x ∈ b, stopRef x = none) → stopsOkAux pre b = true := by
  induction b with
  | nil => intro pre _; rfl
  | cons n rest ih =>
    intro pre h
    have hn := h n (by simp)
    simp [stopsOkAux, hn, ih (pre ++ [n]) (fun x hx => h x (by simp [hx]))]

theorem startCount_append (a b : List Node) (sid : Nat) :
    startCount (a ++ b) sid = startCount a sid + startCount b sid := by
  simp [startCount, List.countP_append]

theorem startCount_zero_of_lt (pre : List Node) (lo sid : Nat)
    (hids : ∀ n ∈ pre, idOf n < lo) (hsid : lo ≤ sid) : startCount pre sid = 0 := by
  simp only [startCount, List.countP_eq_zero]
  intro n hn
  have := hids n hn
  simp only [Bool.and_eq_true, beq_iff_eq, not_and]
  intro _
  omega

theorem stopsOkAux_shift (b : List Node) :
    ∀ (pre mid : List Node) (lo : Nat), (∀ n ∈ pre, idOf n < lo) → refsGE lo b →
      stopsOkAux (pre ++ mid) b = stopsOkAux mid b := by
  induction b with
  | nil => intro pre mid lo _ _; rfl
  | cons n rest ih =>
    intro pre mid lo hpre hrefs
    have hrest : refsGE lo rest := fun x hx sid hs => hrefs x (by simp [hx]) sid hs
    have step : (match stopRef n with
        | some sid => startCount (pre ++ mid) sid == 1
        | none => true)
        = (match stopRef n with
        | some sid => startCount mid sid == 1
        | none => true) := by
      cases hs : stopRef n with
      | none => rfl
      | some sid =>
        have hge := hrefs n (by simp) sid hs
        have hz := startCount_zero_of_lt pre lo sid hpre hge
        simp [startCount_append, hz]
    simp only [stopsOkAux, step]
    rw [show pre ++ mid ++ [n] = pre ++ (mid ++ [n]) by simp [List.append_assoc]]
    rw [ih pre (mid ++ [n]) lo hpre hrest]

theorem GoodSeg_append (lo mid hi : Nat) (a b : List Node)
    (h1 : lo ≤ mid) (h2 : mid ≤ hi) (ha : GoodSeg lo mid a) (hb : GoodSeg mid hi b) :
    GoodSeg lo hi (a ++ b) := by
  obtain ⟨ha1, ha2, ha3⟩ := ha
  obtain ⟨hb1, hb2, hb3⟩ := hb
  refine ⟨?_, ?_, ?_⟩
  · intro n hn
    rcases List.mem_append.mp hn with h | h
    · have := ha1 n h; omega
    · have := hb1 n h; omega
  · intro n hn sid hs
    rcases List.mem_append.mp hn with h | h
    · exact ha2 n h sid hs
    · have := hb2 n h sid hs; omega
  · unfold stopsOkB at ha3 hb3 ⊢
    rw [stopsOkAux_append a [] b, ha3]
    simp only [Bool.true_and, List.nil_append]
    have hshift := stopsOkAux_shift b a [] mid (fun n hn => (ha1 n hn).2) hb2
    simp only [List.append_nil] at hshift
    rw [hshift]
    exact hb3

theorem plainSeg_goodSeg (lo hi : Nat) (ns : List Node) (h : plainSeg lo hi ns) :
    GoodSeg lo hi ns := by
  refine ⟨h.1, ?_, ?_⟩
  · intro n hn sid hs
    rw [(h.2 n hn).1] at hs
    exact absurd hs (by simp)
  · exact stopsOkAux_of_noStops ns [] (fun x hx => (h.2 x hx).1)

theorem plainSeg_append (lo mid hi : Nat) (a b : List Node)
    (h1 : lo ≤ mid) (h2 : mid ≤ hi) (ha : plainSeg lo mid a) (hb : plainSeg mid hi b) :
    plainSeg lo hi (a ++ b) := by
  refine ⟨?_, ?_⟩
  · intro x hx
    rcases List.mem_append.mp hx with h | h
    · have := ha.1 x h; omega
    · have := hb.1 x h; omega
  · intro x hx
    rcases List.mem_append.mp hx with h | h
    · exact ha.2 x h
    · exact hb.2 x h


theorem atomStep_plain (fnt : Font) (yo : Int) (pres : Bool) (a : Atom)
    (lg : Bool) (n : Nat) (ns1 : List Node) (lg1 : Bool) (n1 : Nat)
    (h : atomStep fnt yo pres a lg n = .ok (ns1, lg1, n1)) :
    n ≤ n1 ∧ plainSeg n n1 ns1 := by
  unfold atomStep at h
  by_cases hsp : a.isSpace = true
  · rw [if_pos hsp] at h
    by_cases hpr : pres = true
    · rw [if_pos hpr] at h
      by_cases h1 : a.components = " "
      · rw [if_pos h1] at h
        injection h with h'
        injection h' with e1 e2
        injection e2 with e2 e3
        subst e1; subst e3
        refine ⟨by omega, ?_, ?_⟩
        · intro x hx
          rcases List.mem_cons.mp hx with rfl | hx2
          · simp only [idOf]; omega
          · simp at hx2
        · intro x hx
          rcases List.mem_cons.mp hx with rfl | hx2
          · exact ⟨rfl, rfl⟩
          · simp at hx2
      · rw [if_neg h1] at h
        by_cases h2 : a.components = "\t"
        · rw [if_pos h2] at h
          injection h with h'
          injection h' with e1 e2
          injection e2 with e2 e3
          subst e1; subst e3
          refine ⟨by omega, ?_, ?_⟩
          · intro x hx
            simp only [List.mem_cons] at hx
            rcases hx with rfl | rfl | rfl | rfl | hx2 <;>
              first
                | (simp only [idOf]; omega)
                | simp at hx2
          · intro x hx
            simp only [List.mem_cons] at hx
            rcases hx with rfl | rfl | rfl | rfl | hx2 <;>
              first
                | exact ⟨rfl, rfl⟩
                | simp at hx2
        · rw [if_neg h2] at h
          by_cases h3 : a.components = "\n"
          · rw [if_pos h3] at h
            injection h with h'
            injection h' with e1 e2
            injection e2 with e2 e3
            subst e1; subst e3
            refine ⟨by omega, ?_, ?_⟩
            · intro x hx
              simp only [appendLineEnd, List.mem_cons] at hx
              rcases hx with rfl | rfl | rfl | hx2 <;>
                first
                  | (simp only [idOf]; omega)
                  | simp at hx2
            · intro x hx
              simp only [appendLineEnd, List.mem_cons] at hx
              rcases hx with rfl | rfl | rfl | hx2 <;>
                first
                  | exact ⟨rfl, rfl⟩
                  | simp at hx2
          · rw [if_neg h3] at h
            exact absurd h (by simp)
    · rw [if_neg hpr] at h
      by_cases hlg : lg = true
      · rw [if_pos hlg] at h
        injection h with h'
        injection h' with e1 e2
        injection e2 with e2 e3
        subst e1; subst e3
        exact ⟨le_refl n, by intro x hx; simp at hx, by intro x hx; simp at hx⟩
      · rw [if_neg hlg] at h
        injection h with h'
        injection h' with e1 e2
        injection e2 with e2 e3
        subst e1; subst e3
        refine ⟨by omega, ?_, ?_⟩
        · intro x hx
          rcases List.mem_cons.mp hx with rfl | hx2
          · simp only [idOf]; omega
          · simp at hx2
        · intro x hx
          rcases List.mem_cons.mp hx with rfl | hx2
          · exact ⟨rfl, rfl⟩
          · simp at hx2
  · rw [if_neg hsp] at h
    by_cases hk : a.kernAfter ≠ 0
    · rw [if_pos hk] at h
      injection h with h'
      injection h' with e1 e2
      injection e2 with e2 e3
      subst e1; subst e3
      refine ⟨by omega, ?_, ?_⟩
      · intro x hx
        simp only [List.mem_cons] at hx
        rcases hx with rfl | rfl | hx2 <;>
          first
            | (simp only [idOf]; omega)
            | simp at hx2
      · intro x hx
        simp only [List.mem_cons] at hx
        rcases hx with rfl | rfl | hx2 <;>
          first
            | exact ⟨rfl, rfl⟩
            | simp at hx2
    · rw [if_neg hk] at h
      injection h with h'
      injection h' with e1 e2
      injection e2 with e2 e3
      subst e1; subst e3
      refine ⟨by omega, ?_, ?_⟩
      · intro x hx
        rcases List.mem_cons.mp hx with rfl | hx2
        · simp only [idOf]; omega
        · simp at hx2
      · intro x hx
        rcases List.mem_cons.mp hx with rfl | hx2
        · exact ⟨rfl, rfl⟩
        · simp at hx2

theorem buildAtoms_plain (fnt : Font) (yo : Int) (pres : Bool) :
    ∀ (atoms : List Atom) (lg : Bool) (n : Nat) (ns : List Node) (lg2 : Bool) (n2 : Nat),
      buildAtoms fnt yo pres atoms lg n = .ok (ns, lg2, n2) →
      n ≤ n2 ∧ plainSeg n n2 ns := by
  intro atoms
  induction atoms with
  | nil =>
    intro lg n ns lg2 n2 h
    injection h with h'
    injection h' with e1 e2
    injection e2 with e2 e3
    subst e1; subst e3
    exact ⟨le_refl n, by intro x hx; simp at hx, by intro x hx; simp at hx⟩
  | cons a rest ih =>
    intro lg n ns lg2 n2 h
    simp only [buildAtoms, bind, Except.bind] at h
    cases hstep : atomStep fnt yo pres a lg n with
    | error e => rw [hstep] at h; exact absurd h (by simp)
    | ok r1 =>
      obtain ⟨ns1, lg1, n1⟩ := r1
      rw [hstep] at h
      dsimp only at h
      cases hrest : buildAtoms fnt yo pres rest lg1 n1 with
      | error e => rw [hrest] at h; exact absurd h (by simp)
      | ok r2 =>
        obtain ⟨nsr, lgr, nr⟩ := r2
        rw [hrest] at h
        simp only at h
        injection h with h'
        injection h' with e1 e2
        injection e2 with e2 e3
        subst e1; subst e3
        obtain ⟨hle1, hp1⟩ := atomStep_plain fnt yo pres a lg n ns1 lg1 n1 hstep
        obtain ⟨hle2, hp2⟩ := ih lg1 n1 nsr lgr nr hrest
        exact ⟨by omega, plainSeg_append n n1 nr ns1 nsr hle1 hle2 hp1 hp2⟩

theorem cacheFont_nextId (face : FaceKey) (fontsize : Int) (st : FeState) :
    (cacheFont face fontsize st).2.nextId = st.nextId := by
  unfold cacheFont CreateFont
  dsimp only
  repeat' split
  all_goals rfl


theorem countP_zero_of_noStart (ns : List Node) (sid : Nat)
    (h : ∀ x ∈ ns, isStartB x = false) : startCount ns sid = 0 := by
  simp only [startCount, List.countP_eq_zero]
  intro x hx
  simp [h x hx]

theorem stopsOk_wrap (start stop : Node) (ns : List Node) (sid : Nat)
    (hstartref : stopRef start = none) (hstart : isStartB start = true)
    (hid : idOf start = sid)
    (hns : ∀ x ∈ ns, stopRef x = none ∧ isStartB x = false)
    (hstopref : stopRef stop = some sid) :
    stopsOkB ((start :: ns) ++ [stop]) = true := by
  unfold stopsOkB
  rw [stopsOkAux_append]
  have t1 : stopsOkAux [] (start :: ns) = true := by
    apply stopsOkAux_of_noStops
    intro x hx
    rcases List.mem_cons.mp hx with rfl | hx2
    · exact hstartref
    · exact (hns x hx2).1
  have t2 : stopsOkAux ([] ++ (start :: ns)) [stop] = true := by
    simp only [stopsOkAux, hstopref, List.nil_append, Bool.and_true]
    have : startCount (start :: ns) sid = 1 := by
      simp only [startCount, List.countP_cons, hstart, hid]
      rw [show List.countP (fun m => isStartB m && idOf m == sid) ns
          = startCount ns sid from rfl]
      rw [countP_zero_of_noStart ns sid (fun x hx => (hns x hx).2)]
      simp
    simp [this]
  rw [t1, t2]
  rfl

theorem buildRun_goodseg (cfg : RunCfg) (str : String) (st : FeState)
    (nl : List Node) (st2 : FeState)
    (hsafe : cfg.hl = none ∨ cfg.col = none)
    (h : buildRun cfg str st = .ok (nl, st2)) :
    GoodSeg st.nextId st2.nextId nl ∧ st.nextId ≤ st2.nextId := by
  unfold buildRun at h
  rcases hcache : cacheFont cfg.face cfg.fontsize st with ⟨fnt, st1⟩
  have hnid : st1.nextId = st.nextId := by
    have := cacheFont_nextId cfg.face cfg.fontsize st
    rw [hcache] at this
    exact this
  rw [hcache] at h
  dsimp only at h
  cases hhl : cfg.hl with
  | some hl =>
    cases hcol : cfg.col with
    | some c =>
      rw [hhl, hcol] at hsafe
      rcases hsafe with h' | h' <;> exact absurd h' (by simp)
    | none =>
      rw [hhl, hcol] at h
      dsimp only at h
      simp only [bind, Except.bind] at h
      cases hatoms : buildAtoms fnt cfg.yoffset cfg.preserve
          (Shape fnt str cfg.features) false (st1.nextId + 1) with
      | error e => rw [hatoms] at h; exact absurd h (by simp)
      | ok r =>
        obtain ⟨ns, lgx, n2⟩ := r
        rw [hatoms] at h
        dsimp only at h
        injection h with h'
        injection h' with e1 e2
        obtain ⟨hle, hplain⟩ := buildAtoms_plain fnt cfg.yoffset cfg.preserve
          (Shape fnt str cfg.features) false (st1.nextId + 1) ns lgx n2 hatoms
        subst e1
        have hn2 : st2.nextId = n2 + 1 := by rw [← e2]
        rw [hn2, ← hnid]
        set b := st1.nextId with hb
        have hstart : isStartB (Node.startStop b .actionHyperlink none (some hl.uri) false)
            = true := rfl
        constructor
        · refine ⟨?_, ?_, ?_⟩
          · intro x hx
            simp at hx
            rcases hx with rfl | hx | rfl
            · simp only [idOf]; omega
            · have := hplain.1 x hx; omega
            · simp only [idOf]; omega
          · intro x hx sid hs
            simp at hx
            rcases hx with rfl | hx | rfl
            · simp [stopRef] at hs
            · rw [(hplain.2 x hx).1] at hs; exact absurd hs (by simp)
            · simp only [stopRef] at hs
              injection hs with hs'
              omega
          · exact stopsOk_wrap
              (Node.startStop b .actionHyperlink none (some hl.uri) false)
              (Node.startStop n2 .actionNone (some b) none false) ns b
              rfl rfl rfl (fun x hx => hplain.2 x hx) rfl
        · omega
  | none =>
    cases hcol : cfg.col with
    | some c =>
      rw [hhl, hcol] at h
      dsimp only at h
      simp only [bind, Except.bind] at h
      cases hatoms : buildAtoms fnt cfg.yoffset cfg.preserve
          (Shape fnt str cfg.features) false (st1.nextId + 1) with
      | error e => rw [hatoms] at h; exact absurd h (by simp)
      | ok r =>
        obtain ⟨ns, lgx, n2⟩ := r
        rw [hatoms] at h
        dsimp only at h
        injection h with h'
        injection h' with e1 e2
        obtain ⟨hle, hplain⟩ := buildAtoms_plain fnt cfg.yoffset cfg.preserve
          (Shape fnt str cfg.features) false (st1.nextId + 1) ns lgx n2 hatoms
        subst e1
        have hn2 : st2.nextId = n2 + 1 := by rw [← e2]
        rw [hn2, ← hnid]
        constructor
        · refine ⟨?_, ?_, ?_⟩
          · intro x hx
            simp at hx
            rcases hx with rfl | hx | rfl
            · simp only [idOf]; omega
            · have := hplain.1 x hx; omega
            · simp only [idOf]; omega
          · intro x hx sid hs
            simp at hx
            rcases hx with rfl | hx | rfl
            · simp [stopRef] at hs
            · rw [(hplain.2 x hx).1] at hs; exact absurd hs (by simp)
            · simp [stopRef] at hs
          · apply stopsOkAux_of_noStops
            intro x hx
            simp at hx
            rcases hx with rfl | hx | rfl
            · rfl
            · exact (hplain.2 x hx).1
            · rfl
        · omega
    | none =>
      rw [hhl, hcol] at h
      dsimp only at h
      simp only [bind, Except.bind] at h
      cases hatoms : buildAtoms fnt cfg.yoffset cfg.preserve
          (Shape fnt str cfg.features) false st1.nextId with
      | error e => rw [hatoms] at h; exact absurd h (by simp)
      | ok r =>
        obtain ⟨ns, lgx, n2⟩ := r
        rw [hatoms] at h
        dsimp only at h
        injection h with h'
        injection h' with e1 e2
        obtain ⟨hle, hplain⟩ := buildAtoms_plain fnt cfg.yoffset cfg.preserve
          (Shape fnt str cfg.features) false st1.nextId ns lgx n2 hatoms
        subst e1
        have hn2 : st2.nextId = n2 := by rw [← e2]
        rw [hn2, ← hnid]
        constructor
        · apply plainSeg_goodSeg
          simpa using hplain
        · omega


theorem buildNodelist_split (colors : List (String × Color)) (feats : List String)
    (st : FeState) (ts : Settings) (s : String) (nl : List Node) (st2 : FeState)
    (h : BuildNodelistFromString colors feats st ts s = .ok (nl, st2)) :
    ∃ cfg, resolveRun colors feats ts = .ok cfg ∧ buildRun cfg s st = .ok (nl, st2) := by
  unfold BuildNodelistFromString at h
  simp only [bind, Except.bind] at h
  cases hre : resolveRun colors feats ts with
  | error e => rw [hre] at h; exact absurd h (by simp)
  | ok cfg =>
    rw [hre] at h
    exact ⟨cfg, rfl, h⟩

theorem resolveRun_safety (colors : List (String × Color)) (feats : List String)
    (ts : Settings) (cfg : RunCfg) (h : resolveRun colors feats ts = .ok cfg) :
    (mlookup ts .hyperlink = none → cfg.hl = none)
    ∧ (resolveColor colors ts = none → cfg.col = none) := by
  unfold resolveRun at h
  simp only [bind, Except.bind] at h
  cases h1 : resolveStyle ts with
  | error e => rw [h1] at h; exact absurd h (by simp)
  | ok fsty =>
  rw [h1] at h; dsimp only at h
  cases h2 : resolveFamily ts with
  | error e => rw [h2] at h; exact absurd h (by simp)
  | ok ffOpt =>
  rw [h2] at h; dsimp only at h
  cases h3 : resolveSize ts with
  | error e => rw [h3] at h; exact absurd h (by simp)
  | ok fontsize0 =>
  rw [h3] at h; dsimp only at h
  cases h4 : resolveHyperlink ts with
  | error e => rw [h4] at h; exact absurd h (by simp)
  | ok hlOpt =>
  rw [h4] at h; dsimp only at h
  cases h5 : resolvePreserve ts with
  | error e => rw [h5] at h; exact absurd h (by simp)
  | ok preserve =>
  rw [h5] at h; dsimp only at h
  cases h6 : resolveYOffset ts with
  | error e => rw [h6] at h; exact absurd h (by simp)
  | ok yoffset =>
  rw [h6] at h; dsimp only at h
  cases ffOpt with
  | none => exact absurd h (by simp)
  | some ff =>
  dsimp only at h
  cases h7 : GetFontSource ff (resolveWeight ts) fsty with
  | error e => rw [h7] at h; exact absurd h (by simp)
  | ok fs =>
  rw [h7] at h; dsimp only at h
  injection h with h'
  subst h'
  constructor
  · intro hnone
    show hlOpt = none
    unfold resolveHyperlink at h4
    rw [hnone] at h4
    injection h4 with h4'
    exact h4'.symm
  · intro hnone
    show resolveColor colors ts = none
    exact hnone


theorem buildNodelist_goodseg (colors : List (String × Color)) (feats : List String)
    (st : FeState) (ts : Settings) (s : String) (nl : List Node) (st2 : FeState)
    (hsafe : mlookup ts .hyperlink = none ∨ resolveColor colors ts = none)
    (h : BuildNodelistFromString colors feats st ts s = .ok (nl, st2)) :
    GoodSeg st.nextId st2.nextId nl ∧ st.nextId ≤ st2.nextId := by
  obtain ⟨cfg, hre, hbr⟩ := buildNodelist_split colors feats st ts s nl st2 h
  have hsf := resolveRun_safety colors feats ts cfg hre
  exact buildRun_goodseg cfg s st nl st2
    (hsafe.elim (fun hh => .inl (hsf.1 hh)) (fun hh => .inr (hsf.2 hh))) hbr

theorem mlookup_mupdate_self {α β : Type} [DecidableEq α] (l : List (α × β)) (k : α) (v : β) :
    mlookup (mupdate l k v) k = some v := by
  induction l with
  | nil => simp [mupdate, mlookup]
  | cons p r ih =>
    by_cases hp : p.1 = k
    · simp [mupdate, hp, mlookup]
    · simp [mupdate, hp, mlookup, ih]

theorem mlookup_mupdate_ne {α β : Type} [DecidableEq α] (l : List (α × β)) (k k2 : α) (v : β)
    (hne : k ≠ k2) : mlookup (mupdate l k v) k2 = mlookup l k2 := by
  induction l with
  | nil => simp [mupdate, mlookup, hne]
  | cons p r ih =>
    by_cases hp : p.1 = k
    · simp [mupdate, hp, mlookup, hne, ih]
    · simp [mupdate, hp, mlookup, ih]

theorem mlookup_mdelete_self {α β : Type} [DecidableEq α] (l : List (α × β)) (k : α) :
    mlookup (mdelete l k) k = none := by
  induction l with
  | nil => rfl
  | cons p r ih =>
    by_cases hp : p.1 = k
    · simpa [mdelete, hp] using ih
    · simpa [mdelete, hp, mlookup] using ih

theorem mlookup_mdelete_ne {α β : Type} [DecidableEq α] (l : List (α × β)) (k k2 : α)
    (hne : k2 ≠ k) : mlookup (mdelete l k) k2 = mlookup l k2 := by
  induction l with
  | nil => rfl
  | cons p r ih =>
    unfold mdelete at ih ⊢
    rw [List.filter_cons]
    by_cases hp : p.1 = k
    · have hc : (!decide (p.1 = k)) = false := by simp [hp]
      rw [hc]
      simp only [Bool.false_eq_true, if_false]
      rw [ih]
      have hne2 : ¬p.1 = k2 := by rw [hp]; exact fun hh => hne hh.symm
      simp [mlookup, hne2]
    · have hc : (!decide (p.1 = k)) = true := by simp [hp]
      rw [hc]
      simp only [if_true]
      by_cases hp2 : p.1 = k2
      · simp [mlookup, hp2]
      · simp only [mlookup, hp2, if_false]
        exact ih

theorem inherit_preserves (parent : Settings) :
    ∀ (child : Settings) (k : SettingType) (v : SettingValue),
      mlookup child k = some v → mlookup (inheritSettings parent child) k = some v := by
  induction parent with
  | nil => intro child k v h; exact h
  | cons kv rest ih =>
    intro child k v h
    unfold inheritSettings at *
    simp only [List.foldl_cons]
    apply ih
    by_cases hp : (mlookup child kv.1).isSome
    · simp [hp, h]
    · simp only [hp, if_false, Bool.false_eq_true]
      by_cases hk : kv.1 = k
      · subst hk
        rw [h] at hp
        simp at hp
      · rw [mlookup_mupdate_ne child kv.1 k kv.2 hk]
        exact h

theorem inherit_absent (parent : Settings) :
    ∀ (child : Settings) (k : SettingType), mlookup child k = none →
      mlookup (inheritSettings parent child) k = mlookup parent k := by
  induction parent with
  | nil => intro child k h; exact h
  | cons kv rest ih =>
    intro child k h
    unfold inheritSettings at *
    simp only [List.foldl_cons]
    by_cases hk : kv.1 = k
    · subst hk
      have hnp : (mlookup child kv.1).isSome = false := by simp [h]
      simp only [hnp, Bool.false_eq_true, if_false]
      have hupd : mlookup (mupdate child kv.1 kv.2) kv.1 = some kv.2 :=
        mlookup_mupdate_self child kv.1 kv.2
      have := inherit_preserves rest (mupdate child kv.1 kv.2) kv.1 kv.2 hupd
      unfold inheritSettings at this
      rw [this]
      simp [mlookup]
    · have hstep : mlookup (if (mlookup child kv.1).isSome then child
          else mupdate child kv.1 kv.2) k = none := by
        by_cases hp : (mlookup child kv.1).isSome
        · simp [hp, h]
        · simp only [hp, Bool.false_eq_true, if_false]
          rw [mlookup_mupdate_ne child kv.1 k kv.2 hk]
          exact h
      rw [ih _ k hstep]
      simp [mlookup, hk]



theorem startCount_zero_of_ge (ns : List Node) (a sid : Nat)
    (hids : ∀ n ∈ ns, a ≤ idOf n) (hsid : sid < a) : startCount ns sid = 0 := by
  simp only [startCount, List.countP_eq_zero]
  intro n hn
  have := hids n hn
  simp only [Bool.and_eq_true, beq_iff_eq, not_and]
  intro _
  omega

theorem goodseg_push_start (lo m : Nat) (acc : List Node) (nd : Node)
    (hg : GoodSeg lo m acc) (hid : idOf nd = m) (href : stopRef nd = none)
    (hlo : lo ≤ m) : GoodSeg lo (m + 1) (acc ++ [nd]) := by
  apply GoodSeg_append lo m (m + 1) acc [nd] hlo (by omega) hg
  refine ⟨?_, ?_, ?_⟩
  · intro x hx
    rcases List.mem_cons.mp hx with rfl | hx2
    · omega
    · simp at hx2
  · intro x hx sid hs
    rcases List.mem_cons.mp hx with rfl | hx2
    · rw [href] at hs; exact absurd hs (by simp)
    · simp at hx2
  · apply stopsOkAux_of_noStops
    intro x hx
    rcases List.mem_cons.mp hx with rfl | hx2
    · exact href
    · simp at hx2

theorem goodseg_push_stop (lo m sid : Nat) (acc : List Node) (nd : Node)
    (hg : GoodSeg lo m acc) (hid : idOf nd = m) (href : stopRef nd = some sid)
    (hcount : startCount acc sid = 1) (hsid : lo ≤ sid) (hlo : lo ≤ m) :
    GoodSeg lo (m + 1) (acc ++ [nd]) := by
  obtain ⟨hg1, hg2, hg3⟩ := hg
  refine ⟨?_, ?_, ?_⟩
  · intro x hx
    rcases List.mem_append.mp hx with hx2 | hx2
    · have := hg1 x hx2; omega
    · rcases List.mem_cons.mp hx2 with rfl | hx3
      · omega
      · simp at hx3
  · intro x hx sid2 hs
    rcases List.mem_append.mp hx with hx2 | hx2
    · exact hg2 x hx2 sid2 hs
    · rcases List.mem_cons.mp hx2 with rfl | hx3
      · rw [href] at hs
        injection hs with hs'
        omega
      · simp at hx3
  · unfold stopsOkB at hg3 ⊢
    rw [stopsOkAux_append, hg3]
    simp only [Bool.true_and, List.nil_append]
    simp [stopsOkAux, href, hcount]

theorem startCount_append_zero (acc seg : List Node) (sid a : Nat)
    (hids : ∀ n ∈ seg, a ≤ idOf n) (hsid : sid < a) :
    startCount (acc ++ seg) sid = startCount acc sid := by
  rw [startCount_append, startCount_zero_of_ge seg a sid hids hsid]
  omega


theorem mknodesItems_goodseg (colors : List (String × Color)) (feats : List String) :
    ∀ (settings : Settings) (items : List Item) (acc : List Node) (hlStart : Option Nat)
      (hlDest : String) (st : FeState),
      ∀ (lo : Nat) (ns : List Node) (items2 : List Item) (st2 : FeState),
        noEmbeddedB items = true →
        safeS colors settings →
        GoodSeg lo st.nextId acc →
        (∀ sid, hlStart = some sid → startCount acc sid = 1 ∧ lo ≤ sid ∧ sid < st.nextId) →
        lo ≤ st.nextId →
        mknodesItems colors feats settings items acc hlStart hlDest st = .ok (ns, items2, st2) →
        GoodSeg lo st2.nextId ns ∧ st.nextId ≤ st2.nextId := by
  intro settings items acc hlStart hlDest st
  induction settings, items, acc, hlStart, hlDest, st using mknodesItems.induct colors feats with
  | case1 settings acc x st sid =>
    intro lo ns items2 st2 hemb hsafe hacc hinv hlo h
    simp only [mknodesItems] at h
    injection h with h'
    injection h' with e1 e2
    injection e2 with e2 e3
    subst e1
    obtain ⟨hc, hs1, hs2⟩ := hinv sid rfl
    constructor
    · rw [← e3]
      exact goodseg_push_stop lo st.nextId sid acc _ hacc rfl rfl hc hs1 hlo
    · rw [← e3]; dsimp only; omega
  | case2 settings acc x st =>
    intro lo ns items2 st2 hemb hsafe hacc hinv hlo h
    simp only [mknodesItems] at h
    injection h with h'
    injection h' with e1 e2
    injection e2 with e2 e3
    subst e1
    rw [← e3]
    exact ⟨hacc, le_refl _⟩
  | case3 settings s rest acc hlDest st sid endHL ih =>
    intro lo ns items2 st2 hemb hsafe hacc hinv hlo h
    simp only [mknodesItems] at h
    simp only [noEmbeddedB] at hemb
    rcases hb : BuildNodelistFromString colors feats
        { st with nextId := st.nextId + 1 } settings s with err | p
    · rw [hb] at h; simp [bind, Except.bind] at h
    · obtain ⟨nl, stB⟩ := p
      rw [hb] at h
      simp only [bind, Except.bind] at h
      rcases hm : mknodesItems colors feats settings rest
          (acc ++ [Node.startStop st.nextId SSAction.actionNone (some sid) none false] ++ nl)
          none hlDest stB with err | q
      · rw [hm] at h; simp [Except.bind] at h
      · obtain ⟨ns3, items3, stC⟩ := q
        rw [hm] at h
        simp only [Except.bind] at h
        simp only [Except.ok.injEq, Prod.mk.injEq] at h
        obtain ⟨e1, e2, e3⟩ := h
        subst e1
        subst e3
        obtain ⟨hcount, hs1, hs2⟩ := hinv sid rfl
        have hstep1 : GoodSeg lo (st.nextId + 1)
            (acc ++ [Node.startStop st.nextId SSAction.actionNone (some sid) none false]) :=
          goodseg_push_stop lo st.nextId sid acc _ hacc rfl rfl hcount hs1 hlo
        obtain ⟨hg2, hle2⟩ := buildNodelist_goodseg colors feats
          { st with nextId := st.nextId + 1 } settings s nl stB hsafe hb
        dsimp only at hg2 hle2
        have hstep2 : GoodSeg lo stB.nextId
            (acc ++ [Node.startStop st.nextId SSAction.actionNone (some sid) none false] ++ nl) :=
          GoodSeg_append lo (st.nextId + 1) stB.nextId _ nl (by omega) hle2 hstep1 hg2
        have hres := ih nl stB lo ns3 items3 stC hemb hsafe hstep2
          (fun s2 hx => absurd hx (by simp)) (by omega) hm
        exact ⟨hres.1, by omega⟩
  | case4 settings s rest acc hlDest st ih =>
    intro lo ns items2 st2 hemb hsafe hacc hinv hlo h
    simp only [mknodesItems] at h
    simp only [noEmbeddedB] at hemb
    rcases hb : BuildNodelistFromString colors feats st settings s with err | p
    · rw [hb] at h; simp [bind, Except.bind] at h
    · obtain ⟨nl, stB⟩ := p
      rw [hb] at h
      simp only [bind, Except.bind] at h
      rcases hm : mknodesItems colors feats settings rest (acc ++ nl) none hlDest stB
          with err | q
      · rw [hm] at h; simp [Except.bind] at h
      · obtain ⟨ns3, items3, stC⟩ := q
        rw [hm] at h
        simp only [Except.bind] at h
        simp only [Except.ok.injEq, Prod.mk.injEq] at h
        obtain ⟨e1, e2, e3⟩ := h
        subst e1
        subst e3
        obtain ⟨hg2, hle2⟩ := buildNodelist_goodseg colors feats st settings s nl stB hsafe hb
        have hstep2 : GoodSeg lo stB.nextId (acc ++ nl) :=
          GoodSeg_append lo st.nextId stB.nextId acc nl hlo hle2 hacc hg2
        have hres := ih nl stB lo ns3 items3 stC hemb hsafe hstep2
          (fun s2 hx => absurd hx (by simp)) (by omega) hm
        exact ⟨hres.1, by omega⟩
  | case5 settings cs citems rest acc hlDest st hl hlook ih1 ih2 ih3 =>
    intro lo ns items2 st2 hemb hsafe hacc hinv hlo h
    simp only [mknodesItems, hlook] at h
    simp only [noEmbeddedB, Bool.and_eq_true] at hemb
    obtain ⟨hembc, hembr⟩ := hemb
    simp only [pure, Except.pure, bind, Except.bind] at h
    have hcount1 : startCount (acc ++
        [Node.startStop st.nextId SSAction.actionHyperlink none (some hl.uri) false])
        st.nextId = 1 := by
      rw [startCount_append,
        startCount_zero_of_lt acc st.nextId st.nextId
          (fun n hn => (hacc.1 n hn).2) (le_refl _)]
      simp [startCount, isStartB, idOf]
    have hstart : GoodSeg lo (st.nextId + 1) (acc ++
        [Node.startStop st.nextId SSAction.actionHyperlink none (some hl.uri) false]) :=
      goodseg_push_start lo st.nextId acc _ hacc rfl rfl hlo
    by_cases hc : citems.isEmpty = true
    · rw [if_pos hc] at h
      rcases hm : mknodesItems colors feats settings rest
          (acc ++ [Node.startStop st.nextId SSAction.actionHyperlink none (some hl.uri) false])
          (some st.nextId) hl.uri { st with nextId := st.nextId + 1 } with err | q
      · rw [hm] at h; simp [Except.bind] at h
      · obtain ⟨ns3, items3, stB⟩ := q
        rw [hm] at h
        simp only [Except.bind] at h
        simp only [Except.ok.injEq, Prod.mk.injEq] at h
        obtain ⟨e1, e2, e3⟩ := h
        subst e1
        subst e3
        have hinv2 : ∀ sid, (some st.nextId : Option Nat) = some sid →
            startCount (acc ++
              [Node.startStop st.nextId SSAction.actionHyperlink none (some hl.uri) false])
              sid = 1 ∧ lo ≤ sid ∧ sid < st.nextId + 1 := by
          intro sid hx
          injection hx with hx2
          subst hx2
          exact ⟨hcount1, by omega, by omega⟩
        have hres := ih1 _ (some st.nextId) hl.uri { st with nextId := st.nextId + 1 }
          lo ns3 items3 stB hembr hsafe hstart hinv2 (by dsimp only; omega) hm
        dsimp only at hres
        exact ⟨hres.1, by omega⟩
    · rw [if_neg hc] at h
      rcases hmc : mknodesItems colors feats (childSettings settings cs) citems [] none ""
          { st with nextId := st.nextId + 1 } with err | qc
      · rw [hmc] at h; simp [Except.bind] at h
      · obtain ⟨nlc, citems2, stB⟩ := qc
        rw [hmc] at h
        simp only [Except.bind] at h
        rcases hmr : mknodesItems colors feats settings rest
            ((acc ++ [Node.startStop st.nextId SSAction.actionHyperlink none (some hl.uri) false])
              ++ nlc) (some st.nextId) hl.uri stB with err | qr
        · rw [hmr] at h; simp [Except.bind] at h
        · obtain ⟨ns3, items3, stC⟩ := qr
          rw [hmr] at h
          simp only [Except.bind] at h
          simp only [Except.ok.injEq, Prod.mk.injEq] at h
          obtain ⟨e1, e2, e3⟩ := h
          subst e1
          subst e3
          have hchild := ih2 { st with nextId := st.nextId + 1 } (st.nextId + 1)
            nlc citems2 stB hembc
            (Or.inl (mlookup_mdelete_self (inheritSettings settings cs) SettingType.hyperlink))
            ⟨fun n hn => absurd hn (List.not_mem_nil n),
             fun n hn => absurd hn (List.not_mem_nil n), rfl⟩
            (fun sid hx => absurd hx (by simp)) (le_refl _) hmc
          dsimp only at hchild
          have hseg2 : GoodSeg lo stB.nextId
              ((acc ++ [Node.startStop st.nextId SSAction.actionHyperlink none
                (some hl.uri) false]) ++ nlc) :=
            GoodSeg_append lo (st.nextId + 1) stB.nextId _ nlc (by omega) hchild.2
              hstart hchild.1
          have hinv2 : ∀ sid, (some st.nextId : Option Nat) = some sid →
              startCount ((acc ++
                [Node.startStop st.nextId SSAction.actionHyperlink none (some hl.uri) false])
                ++ nlc) sid = 1 ∧ lo ≤ sid ∧ sid < stB.nextId := by
            intro sid hx
            injection hx with hx2
            subst hx2
            refine ⟨?_, by omega, by omega⟩
            rw [startCount_append_zero _ nlc st.nextId (st.nextId + 1)
              (fun n hn => (hchild.1.1 n hn).1) (by omega)]
            exact hcount1
          have hres := ih3 _ (some st.nextId) hl.uri nlc stB lo ns3 items3 stC
            hembr hsafe hseg2 hinv2 (by omega) hmr
          exact ⟨hres.1, by omega⟩
  | case6 settings cs citems rest acc hlDest st val hval hlook ih1 ih2 ih3 =>
    intro lo ns items2 st2 hemb hsafe hacc hinv hlo h
    simp [mknodesItems, hval, hlook, bind, Except.bind, throw, throwThe,
      MonadExceptOf.throw] at h
  | case7 settings cs citems rest acc hlDest st hlook ih1 ih2 ih3 =>
    intro lo ns items2 st2 hemb hsafe hacc hinv hlo h
    simp only [mknodesItems, hlook] at h
    simp only [noEmbeddedB, Bool.and_eq_true] at hemb
    obtain ⟨hembc, hembr⟩ := hemb
    simp only [pure, Except.pure, bind, Except.bind] at h
    by_cases hc : citems.isEmpty = true
    · rw [if_pos hc] at h
      rcases hm : mknodesItems colors feats settings rest acc none hlDest st with err | q
      · rw [hm] at h; simp [Except.bind] at h
      · obtain ⟨ns3, items3, stB⟩ := q
        rw [hm] at h
        simp only [Except.bind] at h
        simp only [Except.ok.injEq, Prod.mk.injEq] at h
        obtain ⟨e1, e2, e3⟩ := h
        subst e1
        subst e3
        exact ih1 acc none hlDest st lo ns3 items3 stB hembr hsafe hacc hinv hlo hm
    · rw [if_neg hc] at h
      rcases hmc : mknodesItems colors feats (childSettings settings cs) citems [] none "" st
          with err | qc
      · rw [hmc] at h; simp [Except.bind] at h
      · obtain ⟨nlc, citems2, stB⟩ := qc
        rw [hmc] at h
        simp only [Except.bind] at h
        rcases hmr : mknodesItems colors feats settings rest (acc ++ nlc) none hlDest stB
            with err | qr
        · rw [hmr] at h; simp [Except.bind] at h
        · obtain ⟨ns3, items3, stC⟩ := qr
          rw [hmr] at h
          simp only [Except.bind] at h
          simp only [Except.ok.injEq, Prod.mk.injEq] at h
          obtain ⟨e1, e2, e3⟩ := h
          subst e1
          subst e3
          have hchild := ih2 st st.nextId nlc citems2 stB hembc
            (Or.inl (mlookup_mdelete_self (inheritSettings settings cs) SettingType.hyperlink))
            ⟨fun n hn => absurd hn (List.not_mem_nil n),
             fun n hn => absurd hn (List.not_mem_nil n), rfl⟩
            (fun sid hx => absurd hx (by simp)) (le_refl _) hmc
          have hseg2 : GoodSeg lo stB.nextId (acc ++ nlc) :=
            GoodSeg_append lo st.nextId stB.nextId acc nlc hlo hchild.2 hacc hchild.1
          have hres := ih3 acc none hlDest nlc stB lo ns3 items3 stC
            hembr hsafe hseg2 (fun s2 hx => absurd hx (by simp)) (by omega) hmr
          exact ⟨hres.1, by omega⟩
  | case8 settings cs citems rest acc hlDest st sid hl hlook ih1 ih2 ih3 =>
    intro lo ns items2 st2 hemb hsafe hacc hinv hlo h
    simp only [mknodesItems, hlook] at h
    simp only [noEmbeddedB, Bool.and_eq_true] at hemb
    obtain ⟨hembc, hembr⟩ := hemb
    simp only [pure, Except.pure, bind, Except.bind] at h
    by_cases hc : citems.isEmpty = true
    · rw [if_pos hc] at h
      rcases hm : mknodesItems colors feats settings rest acc (some sid) hlDest st
          with err | q
      · rw [hm] at h; simp [Except.bind] at h
      · obtain ⟨ns3, items3, stB⟩ := q
        rw [hm] at h
        simp only [Except.bind] at h
        simp only [Except.ok.injEq, Prod.mk.injEq] at h
        obtain ⟨e1, e2, e3⟩ := h
        subst e1
        subst e3
        exact ih1 acc (some sid) hlDest st lo ns3 items3 stB hembr hsafe hacc hinv hlo hm
    · rw [if_neg hc] at h
      rcases hmc : mknodesItems colors feats (childSettings settings cs) citems [] none "" st
          with err | qc
      · rw [hmc] at h; simp [Except.bind] at h
      · obtain ⟨nlc, citems2, stB⟩ := qc
        rw [hmc] at h
        simp only [Except.bind] at h
        rcases hmr : mknodesItems colors feats settings rest (acc ++ nlc) (some sid) hlDest stB
            with err | qr
        · rw [hmr] at h; simp [Except.bind] at h
        · obtain ⟨ns3, items3, stC⟩ := qr
          rw [hmr] at h
          simp only [Except.bind] at h
          simp only [Except.ok.injEq, Prod.mk.injEq] at h
          obtain ⟨e1, e2, e3⟩ := h
          subst e1
          subst e3
          have hchild := ih2 st st.nextId nlc citems2 stB hembc
            (Or.inl (mlookup_mdelete_self (inheritSettings settings cs) SettingType.hyperlink))
            ⟨fun n hn => absurd hn (List.not_mem_nil n),
             fun n hn => absurd hn (List.not_mem_nil n), rfl⟩
            (fun s2 hx => absurd hx (by simp)) (le_refl _) hmc
          have hseg2 : GoodSeg lo stB.nextId (acc ++ nlc) :=
            GoodSeg_append lo st.nextId stB.nextId acc nlc hlo hchild.2 hacc hchild.1
          obtain ⟨hcnt, hb1, hb2⟩ := hinv sid rfl
          have hinv2 : ∀ s2, (some sid : Option Nat) = some s2 →
              startCount (acc ++ nlc) s2 = 1 ∧ lo ≤ s2 ∧ s2 < stB.nextId := by
            intro s2 hx
            injection hx with hx2
            subst hx2
            refine ⟨?_, hb1, by omega⟩
            rw [startCount_append_zero acc nlc sid st.nextId
              (fun n hn => (hchild.1.1 n hn).1) (by omega)]
            exact hcnt
          have hres := ih3 acc (some sid) hlDest nlc stB lo ns3 items3 stC
            hembr hsafe hseg2 hinv2 (by omega) hmr
          exact ⟨hres.1, by omega⟩
  | case9 settings cs citems rest acc hlDest st sid val hval hlook ih1 ih2 ih3 =>
    intro lo ns items2 st2 hemb hsafe hacc hinv hlo h
    simp [mknodesItems, hval, hlook, bind, Except.bind, throw, throwThe,
      MonadExceptOf.throw] at h
  | case10 settings cs citems rest acc hlDest st sid hlook ih1 ih2 ih3 =>
    intro lo ns items2 st2 hemb hsafe hacc hinv hlo h
    simp only [mknodesItems, hlook] at h
    simp only [noEmbeddedB, Bool.and_eq_true] at hemb
    obtain ⟨hembc, hembr⟩ := hemb
    simp only [pure, Except.pure, bind, Except.bind] at h
    by_cases hc : citems.isEmpty = true
    · rw [if_pos hc] at h
      rcases hm : mknodesItems colors feats settings rest acc (some sid) hlDest st
          with err | q
      · rw [hm] at h; simp [Except.bind] at h
      · obtain ⟨ns3, items3, stB⟩ := q
        rw [hm] at h
        simp only [Except.bind] at h
        simp only [Except.ok.injEq, Prod.mk.injEq] at h
        obtain ⟨e1, e2, e3⟩ := h
        subst e1
        subst e3
        exact ih1 acc (some sid) hlDest st lo ns3 items3 stB hembr hsafe hacc hinv hlo hm
    · rw [if_neg hc] at h
      rcases hmc : mknodesItems colors feats (childSettings settings cs) citems [] none "" st
          with err | qc
      · rw [hmc] at h; simp [Except.bind] at h
      · obtain ⟨nlc, citems2, stB⟩ := qc
        rw [hmc] at h
        simp only [Except.bind] at h
        rcases hmr : mknodesItems colors feats settings rest (acc ++ nlc) (some sid) hlDest stB
            with err | qr
        · rw [hmr] at h; simp [Except.bind] at h
        · obtain ⟨ns3, items3, stC⟩ := qr
          rw [hmr] at h
          simp only [Except.bind] at h
          simp only [Except.ok.injEq, Prod.mk.injEq] at h
          obtain ⟨e1, e2, e3⟩ := h
          subst e1
          subst e3
          have hchild := ih2 st st.nextId nlc citems2 stB hembc
            (Or.inl (mlookup_mdelete_self (inheritSettings settings cs) SettingType.hyperlink))
            ⟨fun n hn => absurd hn (List.not_mem_nil n),
             fun n hn => absurd hn (List.not_mem_nil n), rfl⟩
            (fun s2 hx => absurd hx (by simp)) (le_refl _) hmc
          have hseg2 : GoodSeg lo stB.nextId (acc ++ nlc) :=
            GoodSeg_append lo st.nextId stB.nextId acc nlc hlo hchild.2 hacc hchild.1
          obtain ⟨hcnt, hb1, hb2⟩ := hinv sid rfl
          have hinv2 : ∀ s2, (some sid : Option Nat) = some s2 →
              startCount (acc ++ nlc) s2 = 1 ∧ lo ≤ s2 ∧ s2 < stB.nextId := by
            intro s2 hx
            injection hx with hx2
            subst hx2
            refine ⟨?_, hb1, by omega⟩
            rw [startCount_append_zero acc nlc sid st.nextId
              (fun n hn => (hchild.1.1 n hn).1) (by omega)]
            exact hcnt
          have hres := ih3 acc (some sid) hlDest nlc stB lo ns3 items3 stC
            hembr hsafe hseg2 hinv2 (by omega) hmr
          exact ⟨hres.1, by omega⟩
  | case11 settings n rest acc hlStart hlDest st ih =>
    intro lo ns items2 st2 hemb hsafe hacc hinv hlo h
    simp [noEmbeddedB] at hemb


theorem mknodesItems_updates (colors : List (String × Color)) (feats : List String) :
    ∀ (settings : Settings) (items : List Item) (acc : List Node) (hlStart : Option Nat)
      (hlDest : String) (st : FeState),
      ∀ (ns : List Node) (items2 : List Item) (st2 : FeState),
        mknodesItems colors feats settings items acc hlStart hlDest st = .ok (ns, items2, st2) →
        items2 = updateItems settings items := by
  intro settings items acc hlStart hlDest st
  induction settings, items, acc, hlStart, hlDest, st using mknodesItems.induct colors feats with
  | case1 settings acc x st sid =>
    intro ns items2 st2 h
    simp only [mknodesItems] at h
    simp only [Except.ok.injEq, Prod.mk.injEq] at h
    obtain ⟨e1, e2, e3⟩ := h
    subst e2
    simp [updateItems]
  | case2 settings acc x st =>
    intro ns items2 st2 h
    simp only [mknodesItems] at h
    simp only [Except.ok.injEq, Prod.mk.injEq] at h
    obtain ⟨e1, e2, e3⟩ := h
    subst e2
    simp [updateItems]
  | case3 settings s rest acc hlDest st sid endHL ih =>
    intro ns items2 st2 h
    simp only [mknodesItems] at h
    rcases hb : BuildNodelistFromString colors feats
        { st with nextId := st.nextId + 1 } settings s with err | p
    · rw [hb] at h; simp [bind, Except.bind] at h
    · obtain ⟨nl, stB⟩ := p
      rw [hb] at h
      simp only [bind, Except.bind] at h
      rcases hm : mknodesItems colors feats settings rest
          (acc ++ [Node.startStop st.nextId SSAction.actionNone (some sid) none false] ++ nl)
          none hlDest stB with err | q
      · rw [hm] at h; simp [Except.bind] at h
      · obtain ⟨ns3, items3, stC⟩ := q
        rw [hm] at h
        simp only [Except.bind] at h
        simp only [Except.ok.injEq, Prod.mk.injEq] at h
        obtain ⟨e1, e2, e3⟩ := h
        subst e2
        simp [updateItems, ih nl stB ns3 items3 stC hm]
  | case4 settings s rest acc hlDest st ih =>
    intro ns items2 st2 h
    simp only [mknodesItems] at h
    rcases hb : BuildNodelistFromString colors feats st settings s with err | p
    · rw [hb] at h; simp [bind, Except.bind] at h
    · obtain ⟨nl, stB⟩ := p
      rw [hb] at h
      simp only [bind, Except.bind] at h
      rcases hm : mknodesItems colors feats settings rest (acc ++ nl) none hlDest stB
          with err | q
      · rw [hm] at h; simp [Except.bind] at h
      · obtain ⟨ns3, items3, stC⟩ := q
        rw [hm] at h
        simp only [Except.bind] at h
        simp only [Except.ok.injEq, Prod.mk.injEq] at h
        obtain ⟨e1, e2, e3⟩ := h
        subst e2
        simp [updateItems, ih nl stB ns3 items3 stC hm]
  | case5 settings cs citems rest acc hlDest st hl hlook ih1 ih2 ih3 =>
    intro ns items2 st2 h
    simp only [mknodesItems, hlook] at h
    simp only [pure, Except.pure, bind, Except.bind] at h
    by_cases hc : citems.isEmpty = true
    · rw [if_pos hc] at h
      rcases hm : mknodesItems colors feats settings rest
          (acc ++ [Node.startStop st.nextId SSAction.actionHyperlink none (some hl.uri) false])
          (some st.nextId) hl.uri { st with nextId := st.nextId + 1 } with err | q
      · rw [hm] at h; simp [Except.bind] at h
      · obtain ⟨ns3, items3, stB⟩ := q
        rw [hm] at h
        simp only [Except.bind] at h
        simp only [Except.ok.injEq, Prod.mk.injEq] at h
        obtain ⟨e1, e2, e3⟩ := h
        subst e2
        have hcit : citems = [] := List.isEmpty_iff.mp hc
        subst hcit
        simp [updateItems, ih1 _ (some st.nextId) hl.uri
          { st with nextId := st.nextId + 1 } ns3 items3 stB hm]
    · rw [if_neg hc] at h
      rcases hmc : mknodesItems colors feats (childSettings settings cs) citems [] none ""
          { st with nextId := st.nextId + 1 } with err | qc
      · rw [hmc] at h; simp [Except.bind] at h
      · obtain ⟨nlc, citems2, stB⟩ := qc
        rw [hmc] at h
        simp only [Except.bind] at h
        rcases hmr : mknodesItems colors feats settings rest
            ((acc ++ [Node.startStop st.nextId SSAction.actionHyperlink none (some hl.uri) false])
              ++ nlc) (some st.nextId) hl.uri stB with err | qr
        · rw [hmr] at h; simp [Except.bind] at h
        · obtain ⟨ns3, items3, stC⟩ := qr
          rw [hmr] at h
          simp only [Except.bind] at h
          simp only [Except.ok.injEq, Prod.mk.injEq] at h
          obtain ⟨e1, e2, e3⟩ := h
          subst e2
          simp [updateItems, ih2 { st with nextId := st.nextId + 1 } nlc citems2 stB hmc,
            ih3 _ (some st.nextId) hl.uri nlc stB ns3 items3 stC hmr]
  | case6 settings cs citems rest acc hlDest st val hval hlook ih1 ih2 ih3 =>
    intro ns items2 st2 h
    simp [mknodesItems, hval, hlook, bind, Except.bind, throw, throwThe,
      MonadExceptOf.throw] at h
  | case7 settings cs citems rest acc hlDest st hlook ih1 ih2 ih3 =>
    intro ns items2 st2 h
    simp only [mknodesItems, hlook] at h
    simp only [pure, Except.pure, bind, Except.bind] at h
    by_cases hc : citems.isEmpty = true
    · rw [if_pos hc] at h
      rcases hm : mknodesItems colors feats settings rest acc none hlDest st with err | q
      · rw [hm] at h; simp [Except.bind] at h
      · obtain ⟨ns3, items3, stB⟩ := q
        rw [hm] at h
        simp only [Except.bind] at h
        simp only [Except.ok.injEq, Prod.mk.injEq] at h
        obtain ⟨e1, e2, e3⟩ := h
        subst e2
        have hcit : citems = [] := List.isEmpty_iff.mp hc
        subst hcit
        simp [updateItems, ih1 acc none hlDest st ns3 items3 stB hm]
    · rw [if_neg hc] at h
      rcases hmc : mknodesItems colors feats (childSettings settings cs) citems [] none "" st
          with err | qc
      · rw [hmc] at h; simp [Except.bind] at h
      · obtain ⟨nlc, citems2, stB⟩ := qc
        rw [hmc] at h
        simp only [Except.bind] at h
        rcases hmr : mknodesItems colors feats settings rest (acc ++ nlc) none hlDest stB
            with err | qr
        · rw [hmr] at h; simp [Except.bind] at h
        · obtain ⟨ns3, items3, stC⟩ := qr
          rw [hmr] at h
          simp only [Except.bind] at h
          simp only [Except.ok.injEq, Prod.mk.injEq] at h
          obtain ⟨e1, e2, e3⟩ := h
          subst e2
          simp [updateItems, ih2 st nlc citems2 stB hmc,
            ih3 acc none hlDest nlc stB ns3 items3 stC hmr]
  | case8 settings cs citems rest acc hlDest st sid hl hlook ih1 ih2 ih3 =>
    intro ns items2 st2 h
    simp only [mknodesItems, hlook] at h
    simp only [pure, Except.pure, bind, Except.bind] at h
    by_cases hc : citems.isEmpty = true
    · rw [if_pos hc] at h
      rcases hm : mknodesItems colors feats settings rest acc (some sid) hlDest st with err | q
      · rw [hm] at h; simp [Except.bind] at h
      · obtain ⟨ns3, items3, stB⟩ := q
        rw [hm] at h
        simp only [Except.bind] at h
        simp only [Except.ok.injEq, Prod.mk.injEq] at h
        obtain ⟨e1, e2, e3⟩ := h
        subst e2
        have hcit : citems = [] := List.isEmpty_iff.mp hc
        subst hcit
        simp [updateItems, ih1 acc (some sid) hlDest st ns3 items3 stB hm]
    · rw [if_neg hc] at h
      rcases hmc : mknodesItems colors feats (childSettings settings cs) citems [] none "" st
          with err | qc
      · rw [hmc] at h; simp [Except.bind] at h
      · obtain ⟨nlc, citems2, stB⟩ := qc
        rw [hmc] at h
        simp only [Except.bind] at h
        rcases hmr : mknodesItems colors feats settings rest (acc ++ nlc) (some sid) hlDest stB
            with err | qr
        · rw [hmr] at h; simp [Except.bind] at h
        · obtain ⟨ns3, items3, stC⟩ := qr
          rw [hmr] at h
          simp only [Except.bind] at h
          simp only [Except.ok.injEq, Prod.mk.injEq] at h
          obtain ⟨e1, e2, e3⟩ := h
          subst e2
          simp [updateItems, ih2 st nlc citems2 stB hmc,
            ih3 acc (some sid) hlDest nlc stB ns3 items3 stC hmr]
  | case9 settings cs citems rest acc hlDest st sid val hval hlook ih1 ih2 ih3 =>
    intro ns items2 st2 h
    simp [mknodesItems, hval, hlook, bind, Except.bind, throw, throwThe,
      MonadExceptOf.throw] at h
  | case10 settings cs citems rest acc hlDest st sid hlook ih1 ih2 ih3 =>
    intro ns items2 st2 h
    simp only [mknodesItems, hlook] at h
    simp only [pure, Except.pure, bind, Except.bind] at h
    by_cases hc : citems.isEmpty = true
    · rw [if_pos hc] at h
      rcases hm : mknodesItems colors feats settings rest acc (some sid) hlDest st with err | q
      · rw [hm] at h; simp [Except.bind] at h
      · obtain ⟨ns3, items3, stB⟩ := q
        rw [hm] at h
        simp only [Except.bind] at h
        simp only [Except.ok.injEq, Prod.mk.injEq] at h
        obtain ⟨e1, e2, e3⟩ := h
        subst e2
        have hcit : citems = [] := List.isEmpty_iff.mp hc
        subst hcit
        simp [updateItems, ih1 acc (some sid) hlDest st ns3 items3 stB hm]
    · rw [if_neg hc] at h
      rcases hmc : mknodesItems colors feats (childSettings settings cs) citems [] none "" st
          with err | qc
      · rw [hmc] at h; simp [Except.bind] at h
      · obtain ⟨nlc, citems2, stB⟩ := qc
        rw [hmc] at h
        simp only [Except.bind] at h
        rcases hmr : mknodesItems colors feats settings rest (acc ++ nlc) (some sid) hlDest stB
            with err | qr
        · rw [hmr] at h; simp [Except.bind] at h
        · obtain ⟨ns3, items3, stC⟩ := qr
          rw [hmr] at h
          simp only [Except.bind] at h
          simp only [Except.ok.injEq, Prod.mk.injEq] at h
          obtain ⟨e1, e2, e3⟩ := h
          subst e2
          simp [updateItems, ih2 st nlc citems2 stB hmc,
            ih3 acc (some sid) hlDest nlc stB ns3 items3 stC hmr]
  | case11 settings n rest acc hlStart hlDest st ih =>
    intro ns items2 st2 h
    simp only [mknodesItems] at h
    simp only [bind, Except.bind] at h
    rcases hm : mknodesItems colors feats settings rest (acc ++ [n]) hlStart hlDest st
        with err | q
    · rw [hm] at h; simp at h
    · obtain ⟨ns3, items3, stB⟩ := q
      rw [hm] at h
      simp only [Except.ok.injEq, Prod.mk.injEq] at h
      obtain ⟨e1, e2, e3⟩ := h
      subst e2
      simp [updateItems, ih ns3 items3 stB hm]


theorem both_build_eval :
    BuildNodelistFromString [] [] ⟨0, [], 0, []⟩ bothSettings "A" = .ok (bothNL, bothST) := rfl

theorem both_items_eval :
    mknodesItems [] [] bothSettings [.str "A"] [] none "" ⟨0, [], 0, []⟩ =
      .ok (bothNL, [.str "A"], bothST) := by
  simp only [mknodesItems, both_build_eval, bind, Except.bind]
  simp [mknodesItems]

theorem both_mknodes_eval :
    Mknodes [] [] (.mk bothSettings [.str "A"]) ⟨0, [], 0, []⟩ =
      .ok (bothNL, bothST, .mk bothSettings [.str "A"]) := by
  simp [Mknodes, both_items_eval, bind, Except.bind]

theorem noemb_eval : noEmbeddedB linkTreeItems = true := by
  simp [linkTreeItems, noEmbeddedB]

theorem mknodes_spanonly_eval :
    Mknodes [] [] (.mk demoSettings spanOnlyItems) ⟨0, [], 0, []⟩ =
      .ok (spanOnlyNodes, ⟨2, [], 0, []⟩, .mk demoSettings [.span (.mk demoSettings [])]) := by
  have h1 : mknodesItems [] [] demoSettings spanOnlyItems [] none "" ⟨0, [], 0, []⟩ =
      .ok (spanOnlyNodes, [.span (.mk demoSettings [])], ⟨2, [], 0, []⟩) := by
    simp only [spanOnlyItems, mknodesItems, mlookup, bind, Except.bind, pure, Except.pure]
    simp [mknodesItems, childSettings, inheritSettings, mdelete, mupdate, mlookup,
      demoSettings, spanOnlyNodes]
  simp [Mknodes, h1, bind, Except.bind, show spanOnlyItems.isEmpty = false from rfl]

theorem mknodes_txt_eq (colors : List (String × Color)) (feats : List String)
    (s : Settings) (items : List Item) (st : FeState)
    (ns : List Node) (st2 : FeState) (t2 : Txt)
    (hm : Mknodes colors feats (.mk s items) st = .ok (ns, st2, t2)) :
    t2 = .mk s (updateItems s items) := by
  unfold Mknodes at hm
  dsimp only at hm
  by_cases hc : items.isEmpty = true
  · rw [if_pos hc] at hm
    have hit : items = [] := List.isEmpty_iff.mp hc
    subst hit
    simp only [Except.ok.injEq, Prod.mk.injEq] at hm
    obtain ⟨e1, e2, e3⟩ := hm
    rw [← e3]
    simp [updateItems]
  · rw [if_neg hc] at hm
    simp only [bind, Except.bind] at hm
    rcases hq : mknodesItems colors feats s items [] none "" st with err | q
    · rw [hq] at hm; simp at hm
    · obtain ⟨ns3, items3, st3⟩ := q
      rw [hq] at hm
      simp only [Except.ok.injEq, Prod.mk.injEq] at hm
      obtain ⟨e1, e2, e3⟩ := hm
      rw [← e3, mknodesItems_updates colors feats s items [] none "" st ns3 items3 st3 hq]

/-- C2 (amended): for every rich-text tree without embedded pre-compiled
nodes whose root settings do not carry a hyperlink and a color at the
same time, a successful `Mknodes` compile yields a list in which every
`StartStop` stop node's back-reference points to exactly one matching
start node strictly earlier in the list, and the settings map a child
span inherits never contains the `SettingHyperlink` key.  (The original
claim, quantified over all successfully compiled trees, is refuted by
`mknodes_hyperlink_color_counterexample`: when a run sets both a
hyperlink and a color, line 468 drops the hyperlink start node from the
forward list while its stop still references it.) -/
theorem mknodes_startstop_wellformed (colors : List (String × Color)) (feats : List String)
    (s : Settings) (items : List Item) (st : FeState)
    (hemb : noEmbeddedB items = true)
    (hsafe : mlookup s .hyperlink = none ∨ resolveColor colors s = none) :
    mknodesStopsOk colors feats (.mk s items) st = true ∧
    ∀ p c, mlookup (childSettings p c) .hyperlink = none := by
  refine ⟨?_, fun p c => mlookup_mdelete_self _ _⟩
  unfold mknodesStopsOk Mknodes
  dsimp only
  by_cases hc : items.isEmpty = true
  · rw [if_pos hc]
    rfl
  · rw [if_neg hc]
    simp only [bind, Except.bind]
    rcases hm : mknodesItems colors feats s items [] none "" st with err | q
    · rfl
    · obtain ⟨ns, items2, st2⟩ := q
      have hres := mknodesItems_goodseg colors feats s items [] none "" st st.nextId
        ns items2 st2 hemb hsafe
        ⟨fun n hn => absurd hn (List.not_mem_nil n),
         fun n hn => absurd hn (List.not_mem_nil n), rfl⟩
        (fun sid hx => absurd hx (by simp)) (le_refl _) hm
      exact hres.1.2.2

/-- Witness for C2: a concrete tree with a plain run, a hyperlink child
span and a trailing run satisfies the hypotheses, so its compile is
stop-wellformed. -/
theorem mknodes_startstop_wellformed_witness :
    (noEmbeddedB linkTreeItems = true ∧
      (mlookup demoSettings .hyperlink = none ∨ resolveColor [] demoSettings = none)) ∧
    (mknodesStopsOk [] [] (.mk demoSettings linkTreeItems) ⟨0, [], 0, []⟩ = true ∧
      ∀ p c, mlookup (childSettings p c) .hyperlink = none) :=
  ⟨⟨noemb_eval, Or.inl rfl⟩,
   mknodes_startstop_wellformed [] [] demoSettings linkTreeItems ⟨0, [], 0, []⟩
     noemb_eval (Or.inl rfl)⟩

/-- Counterexample to C2 as stated: a root run carrying both a hyperlink
and a color compiles successfully, yet the hyperlink stop node's
back-reference (id 0) has no matching start in the emitted list — the
color branch of `BuildNodelistFromString` overwrites `head`, dropping
the hyperlink start that was created first. -/
theorem mknodes_hyperlink_color_counterexample :
    mknodesStopsOk [] [] (.mk bothSettings [.str "A"]) ⟨0, [], 0, []⟩ = false := by
  simp only [mknodesStopsOk, both_mknodes_eval]
  decide

/-- C5: a key the child span declares itself survives the settings
propagation of `Mknodes` (its value, not an ancestor's, is on the map
the child is compiled with — for every key other than the stripped
`SettingHyperlink`), while a key the child does not declare is copied
from the enclosing scope. -/
theorem child_settings_override (parent child : Settings) (k k2 : SettingType)
    (v : SettingValue)
    (hv : mlookup child k = some v) (hk : k ≠ .hyperlink)
    (h2 : mlookup child k2 = none) :
    mlookup (childSettings parent child) k = some v ∧
    mlookup (inheritSettings parent child) k2 = mlookup parent k2 := by
  constructor
  · unfold childSettings
    rw [mlookup_mdelete_ne (inheritSettings parent child) .hyperlink k hk]
    exact inherit_preserves parent child k v hv
  · exact inherit_absent parent child k2 h2

/-- Witness for C5: a child declaring size 20 under a parent declaring
size 10 and a font family keeps its own size, and inherits the parent's
font family. -/
theorem child_settings_override_witness :
    (mlookup childDemo .size = some (.scaled 20) ∧ (SettingType.size ≠ .hyperlink) ∧
      mlookup childDemo .fontFamily = none) ∧
    (mlookup (childSettings parentDemo childDemo) .size = some (.scaled 20) ∧
      mlookup (inheritSettings parentDemo childDemo) .fontFamily =
        mlookup parentDemo .fontFamily) :=
  ⟨⟨rfl, by decide, rfl⟩,
   child_settings_override parentDemo childDemo .size .fontFamily (.scaled 20)
     rfl (by decide) rfl⟩

/-- C8: a text whose item list is empty compiles to the empty node list
with no error and an unchanged state (`Mknodes` lines 554-556), and
`FormatParagraph` on it takes the empty-items early return (lines
267-271): a vlist holding a single glue, the text unchanged, no
error. -/
theorem empty_items_compile (colors : List (String × Color)) (feats : List String)
    (s : Settings) (st : FeState) (hsize : Int) (opts : List (Para → Para)) :
    Mknodes colors feats (.mk s []) st = .ok ([], st, .mk s []) ∧
    FormatParagraph colors feats (.mk s []) hsize opts st =
      .ok (⟨st.nextId + 1, [.glue st.nextId 0 0 0 0 .glueNormal]⟩, .mk s [],
           { st with nextId := st.nextId + 2 }) :=
  ⟨rfl, rfl⟩

/-- C9: `Mknodes` mutates its input tree — the returned tree rewrites
every child span's settings map with `childSettings` (the inherited
merge with `SettingHyperlink` deleted), recursively; keys the child did
not define are written into the child's map and the hyperlink key is
gone; and `FormatParagraph` writes the chosen size and font family
options into the settings map of the text it compiles. -/
theorem mknodes_mutates_tree (colors : List (String × Color)) (feats : List String)
    (s : Settings) (items : List Item) (st : FeState)
    (ns : List Node) (st2 : FeState) (t2 : Txt)
    (hm : Mknodes colors feats (.mk s items) st = .ok (ns, st2, t2)) :
    t2 = .mk s (updateItems s items) ∧
    (∀ p c, mlookup (childSettings p c) .hyperlink = none) ∧
    (∀ p c k, k ≠ .hyperlink → mlookup c k = none →
        mlookup (childSettings p c) k = mlookup p k) ∧
    (∀ cs citems rest, updateItems s (.span (.mk cs citems) :: rest) =
        .span (.mk (childSettings s cs) (updateItems (childSettings s cs) citems))
          :: updateItems s rest) ∧
    (∀ hsize opts v te2 st3 ff, items ≠ [] → mlookup s .hAlign = none →
       (applyOpts opts { hsize := hsize }).fontsize ≠ 0 →
       (applyOpts opts { hsize := hsize }).fontfamilyOpt = some ff →
       FormatParagraph colors feats (.mk s items) hsize opts st = .ok (v, te2, st3) →
       mlookup te2.settingsOf .size =
         some (.scaled (applyOpts opts { hsize := hsize }).fontsize) ∧
       mlookup te2.settingsOf .fontFamily = some (.famV ff)) := by
  refine ⟨mknodes_txt_eq colors feats s items st ns st2 t2 hm,
    fun p c => mlookup_mdelete_self _ _, ?_, ?_, ?_⟩
  · intro p c k hk hnone
    unfold childSettings
    rw [mlookup_mdelete_ne (inheritSettings p c) .hyperlink k hk]
    exact inherit_absent p c k hnone
  · intro cs citems rest
    simp [updateItems]
  · intro hsize opts v te2 st3 ff hne hha hfs hff hfp
    unfold FormatParagraph at hfp
    have hcne : items.isEmpty = false := by
      cases items with
      | nil => exact absurd rfl hne
      | cons a b => rfl
    simp only [hcne, Bool.false_eq_true, if_false] at hfp
    rw [hha] at hfp
    simp only [pure, Except.pure, bind, Except.bind] at hfp
    rw [if_pos hfs] at hfp
    rw [hff] at hfp
    rcases hmk : Mknodes colors feats
        (.mk (mupdate (mupdate s .size (.scaled (applyOpts opts { hsize := hsize }).fontsize))
          .fontFamily (.famV ff)) items) st with err | q3
    · rw [hmk] at hfp; simp at hfp
    · obtain ⟨nl3, st4, te3⟩ := q3
      rw [hmk] at hfp
      simp only [Except.ok.injEq, Prod.mk.injEq] at hfp
      obtain ⟨e1, e2, e3⟩ := hfp
      have hte := mknodes_txt_eq colors feats _ items st nl3 st4 te3 hmk
      rw [← e2, hte]
      simp only [Txt.settingsOf]
      constructor
      · rw [mlookup_mupdate_ne _ SettingType.fontFamily SettingType.size _ (by decide)]
        exact mlookup_mupdate_self _ _ _
      · exact mlookup_mupdate_self _ _ _

/-- Witness for C9: compiling a single hyperlink child span mutates the
tree — the child's map has inherited the root font family and lost its
hyperlink key. -/
theorem mknodes_mutates_tree_witness :
    (Mknodes [] [] (.mk demoSettings spanOnlyItems) ⟨0, [], 0, []⟩ =
      .ok (spanOnlyNodes, ⟨2, [], 0, []⟩, .mk demoSettings [.span (.mk demoSettings [])])) ∧
    ((Txt.mk demoSettings [.span (.mk demoSettings [])] =
        .mk demoSettings (updateItems demoSettings spanOnlyItems)) ∧
     (∀ p c, mlookup (childSettings p c) .hyperlink = none) ∧
     (∀ p c k, k ≠ .hyperlink → mlookup c k = none →
         mlookup (childSettings p c) k = mlookup p k) ∧
     (∀ cs citems rest, updateItems demoSettings (.span (.mk cs citems) :: rest) =
         .span (.mk (childSettings demoSettings cs)
           (updateItems (childSettings demoSettings cs) citems))
           :: updateItems demoSettings rest) ∧
     (∀ hsize opts v te2 st3 ff, spanOnlyItems ≠ [] →
        mlookup demoSettings .hAlign = none →
        (applyOpts opts { hsize := hsize }).fontsize ≠ 0 →
        (applyOpts opts { hsize := hsize }).fontfamilyOpt = some ff →
        FormatParagraph [] [] (.mk demoSettings spanOnlyItems) hsize opts ⟨0, [], 0, []⟩ =
          .ok (v, te2, st3) →
        mlookup te2.settingsOf .size =
          some (.scaled (applyOpts opts { hsize := hsize }).fontsize) ∧
        mlookup te2.settingsOf .fontFamily = some (.famV ff))) :=
  ⟨mknodes_spanonly_eval,
   mknodes_mutates_tree [] [] demoSettings spanOnlyItems ⟨0, [], 0, []⟩
     spanOnlyNodes ⟨2, [], 0, []⟩ (.mk demoSettings [.span (.mk demoSettings [])])
     mknodes_spanonly_eval⟩


end BG